import Mathlib

/-!
# The order matching engine of the trading server

A shallow embedding of `trading::order_manager_t::process_order`
(`src/order.cpp`), of the order record and the order table (`src/order.hpp`),
of the order frame (`src/xmit_order.hpp`), of `socket_server_t::reader_thread`
and `socket_server_t::processor_thread` with the connection table
(`src/socket_server.cpp`, `src/socket_server.hpp`, `src/conn_info.hpp`) and of
`concurrent::queue_t` (`src/work_queue.hpp`).

Conventions of the embedding.

* A `boost::shared_ptr<order_t>` is a record of the pointee's fields together
  with `addr`, the identity of the heap object.  Mutation through the pointer
  is explicit state passing.  The embedding follows the code when the pointers
  held by the table are pairwise distinct and the incoming pointer is not yet
  in the table, which is how `reader_thread` creates orders
  (`boost::make_shared` for every frame).
* `order_table_t` is the list of the stored pointers in insertion order.  An
  `ordered_non_unique` index enumerates elements of equal key in insertion
  order, so the `(stock, side)` equal range is the sublist of the elements
  with that key, and insertion appends.
* `int` is a 32 bit two's complement integer: values are `Int`, and the
  subtraction of `process_order` wraps modulo `2 ^ 32` (signed overflow, which
  C++ leaves undefined, is taken to wrap).
* `reader_thread` is followed for one accepted socket in the sequential view:
  the outcomes of its `read` calls are given as a list, each with the value
  returned and the buffer content.  `make_shared` hands out the addresses
  `next_addr`, `next_addr + 1`, and so on.
* `conn_info_table_t` is the list of the registered records in insertion
  order, with the `insert` and `erase` of a multi index container whose two
  indices are unique; member functions called on the container itself are
  those of its index 0.
* `queue_t` is the content of its `std::queue`, front first.
* `processor_thread` is followed for one order in the sequential view; its
  calls of `write` are listed with the socket and the frame.
* A connection record lives as long as a shared pointer to it does: the one the
  connection table holds, or the local `cip` of a reader that is in its frame
  loop.  A weak pointer locks to the record it points to when one of these
  holds the record.
-/

namespace trading

/-- Smallest value of a C++ `int`. -/
def INT_MIN : Int := -2147483648

/-- Largest value of a C++ `int`. -/
def INT_MAX : Int := 2147483647

/-- Reduction of an integer to the 32 bit two's complement range. -/
def wrap32 (x : Int) : Int := (x + 2147483648) % 4294967296 - 2147483648

/-- Subtraction of two `int` values, `a - b` in the source. -/
def int_sub (a b : Int) : Int := wrap32 (a - b)

/-- The enumeration `order_t::side_t`. -/
inductive side_t where
  | buy
  | sell
  deriving DecidableEq, Repr

/-- The class `order_t`, with `addr` the identity of the shared object and
`conn_info` the weak pointer to a connection record (its address), if any. -/
structure order_t where
  addr : Nat
  stock : String
  trader : String
  trader_id : Int
  quantity : Int
  balance : Int
  side : side_t
  conn_info : Option Nat
  deriving DecidableEq, Repr

/-- A shared pointer to an order. -/
abbrev order_ptr := order_t

/-- The vector of order pointers `orders_t`. -/
abbrev orders_t := List order_ptr

/-- The multi index container `order_table_t`, in insertion order. -/
abbrev order_table_t := List order_ptr

/-- The six argument constructor of `order_t`, allocated at `addr`: the balance
starts at the quantity. -/
def order_t.make (addr : Nat) (stock trader : String) (trader_id quantity : Int)
    (side : side_t) (conn_info : Option Nat) : order_t :=
  { addr := addr, stock := stock, trader := trader, trader_id := trader_id,
    quantity := quantity, balance := quantity, side := side,
    conn_info := conn_info }

/-- Membership test of the `STOCK_SIDE_INDEX` composite key `(stock, side)`. -/
def ssi_key (stock : String) (side : side_t) (p : order_ptr) : Bool :=
  decide (p.stock = stock ∧ p.side = side)

/-- The call `ssi.equal_range(make_tuple(stock, side))`: the stored orders of
that key, in the iteration order of the index. -/
def equal_range (orders_ : order_table_t) (stock : String) (side : side_t) :
    List order_ptr :=
  orders_.filter (ssi_key stock side)

/-- The side an incoming order is filled from. -/
def reverse_side (s : side_t) : side_t :=
  if s = side_t.buy then side_t.sell else side_t.buy

/-- State at the exit of the `while` loop of `process_order`: the table, the
incoming order, the flag `must_add` and the notification list. -/
structure loop_result where
  orders_ : order_table_t
  order : order_ptr
  must_add : Bool
  to_notify : orders_t
  deriving DecidableEq, Repr

/-- The `while (i.first != i.second)` loop of `process_order`.  The first
argument is the part of the table from the iterator `i.first` on; elements
outside of the equal range are passed over. -/
def match_loop (stock : String) (other_side : side_t) :
    List order_ptr → order_ptr → Bool → orders_t → loop_result
  | [], order, must_add, to_notify => ⟨[], order, must_add, to_notify⟩
  | rhs :: rest, order, must_add, to_notify =>
    if ssi_key stock other_side rhs = true then
      let rhs_bal := int_sub rhs.balance order.balance
      let lhs_bal := int_sub order.balance rhs.balance
      let kept : List order_ptr :=
        if rhs_bal ≤ 0 then [] else [{ rhs with balance := rhs_bal }]
      let to_notify1 : orders_t :=
        if rhs_bal ≤ 0 then to_notify ++ [{ rhs with balance := 0 }] else to_notify
      if lhs_bal ≤ 0 then
        ⟨kept ++ rest, { order with balance := 0 }, false,
          to_notify1 ++ [{ order with balance := 0 }]⟩
      else
        let r := match_loop stock other_side rest { order with balance := lhs_bal }
          true to_notify1
        ⟨kept ++ r.orders_, r.order, r.must_add, r.to_notify⟩
    else
      let r := match_loop stock other_side rest order must_add to_notify
      ⟨rhs :: r.orders_, r.order, r.must_add, r.to_notify⟩

/-- What a call of `process_order` leaves behind: the table `orders_`, the
incoming order and the notification list. -/
structure process_result where
  orders_ : order_table_t
  order : order_ptr
  to_notify : orders_t
  deriving DecidableEq, Repr

/-- The method `order_manager_t::process_order`. -/
def order_manager_t.process_order (orders_ : order_table_t) (order : order_ptr)
    (to_notify : orders_t) : process_result :=
  let other_side := reverse_side order.side
  if equal_range orders_ order.stock other_side = [] then
    ⟨orders_ ++ [order], order, to_notify⟩
  else
    let r := match_loop order.stock other_side orders_ order false to_notify
    if r.must_add = true then
      ⟨r.orders_ ++ [r.order], r.order, r.to_notify⟩
    else
      ⟨r.orders_, r.order, r.to_notify⟩

/-- The table and every notification emitted so far. -/
structure server_state where
  orders_ : order_table_t
  notified : List order_ptr
  deriving DecidableEq, Repr

/-- One round of `processor_thread`: `process_order` on a fresh notification
list; the emitted notifications are recorded. -/
def submit (s : server_state) (order : order_ptr) : server_state :=
  let r := order_manager_t.process_order s.orders_ order []
  ⟨r.orders_, s.notified ++ r.to_notify⟩

/-- Orders processed one after another from the empty table. -/
def run (orders : List order_ptr) : server_state :=
  orders.foldl submit ⟨[], []⟩

end trading

namespace transmission

/-- The struct `transmission::order_t`: the order frame.  The two character
arrays are lists of characters. -/
structure order_t where
  stock_ : List Char
  trader_ : List Char
  trader_id_ : Int
  quantity_ : Int
  balance_ : Int
  side_ : Int
  deriving DecidableEq, Repr

/-- Conversion of a character array to `std::string`: the characters before
the first NUL.  The source reads past the end of an array that holds no NUL;
the embedding stops at the end of the array. -/
def c_string (buf : List Char) : String :=
  String.mk (buf.takeWhile (fun c => c != Char.ofNat 0))

end transmission

namespace trading

/-- The order `reader_thread` creates from a completely read frame `ord` on
the connection record `cip`, allocated at `addr`. -/
def reader_order (addr : Nat) (cip : Nat) (ord : transmission.order_t) : order_ptr :=
  let side := if ord.side_ = 0 then side_t.buy else side_t.sell
  order_t.make addr (transmission.c_string ord.stock_)
    (transmission.c_string ord.trader_) ord.trader_id_ ord.quantity_ side (some cip)

/-- The table `process_order` leaves after the loop: the incoming order is
inserted when `must_add` is set. -/
def loop_result.final_orders (r : loop_result) : order_table_t :=
  if r.must_add = true then r.orders_ ++ [r.order] else r.orders_

/-- Bounds of a balance: at least `lo`, at most the quantity, the quantity an
`int`. -/
def within (lo : Int) (x : order_ptr) : Prop :=
  lo ≤ x.balance ∧ x.balance ≤ x.quantity ∧ x.quantity ≤ INT_MAX

instance within_decidable (lo : Int) (x : order_ptr) : Decidable (within lo x) := by
  unfold within
  infer_instance

/-- Sum of the quantities of the orders of `l` with the given stock and side. -/
def notified_quantity (stock : String) (side : side_t) (l : List order_ptr) : Int :=
  ((l.filter (ssi_key stock side)).map (fun x => x.quantity)).sum

/-- Sum of the filled parts `quantity - balance` of the orders of `l` with the
given stock and side. -/
def filled (stock : String) (side : side_t) (l : List order_ptr) : Int :=
  ((l.filter (ssi_key stock side)).map (fun x => x.quantity - x.balance)).sum

/-- The orders `reader_thread` pushes onto the work queue for a sequence of
completely read frames, each with the address of the new order and with the
connection record of its reader. -/
def reader_orders (frames : List (Nat × Nat × transmission.order_t)) : List order_ptr :=
  frames.map (fun f => reader_order f.1 f.2.1 f.2.2)

/-! ## Scenario orders -/

/-- Order `(IBM, A, 100, BUY)` of scenario S1. -/
def order_A : order_ptr := order_t.make 1 "IBM" "A" 1 100 side_t.buy none

/-- Order `(IBM, B, 100, SELL)` of scenario S2. -/
def order_B100 : order_ptr := order_t.make 2 "IBM" "B" 2 100 side_t.sell none

/-- Order `(IBM, B, 40, SELL)` of scenario S3. -/
def order_B40 : order_ptr := order_t.make 2 "IBM" "B" 2 40 side_t.sell none

/-- Order `(IBM, D, 100, BUY)` of scenario S5. -/
def order_D : order_ptr := order_t.make 4 "IBM" "D" 4 100 side_t.buy none

/-- Order `(IBM, A, 30, BUY)` of scenario S4. -/
def order_A30 : order_ptr := order_t.make 1 "IBM" "A" 1 30 side_t.buy none

/-- Order `(IBM, C, 40, BUY)` of scenario S4. -/
def order_C40 : order_ptr := order_t.make 3 "IBM" "C" 3 40 side_t.buy none

/-- Order `(IBM, B, 50, SELL)` of scenario S4. -/
def order_B50 : order_ptr := order_t.make 2 "IBM" "B" 2 50 side_t.sell none

/-- Order `(IBM, X, 0, BUY)` of scenario S6. -/
def order_X0 : order_ptr := order_t.make 5 "IBM" "X" 5 0 side_t.buy none

/-- A frame `(IBM, N, -5, BUY)`: its quantity field is negative. -/
def frame_negative : transmission.order_t :=
  { stock_ := "IBM".toList ++ List.replicate 5 (Char.ofNat 0),
    trader_ := "N".toList ++ List.replicate 63 (Char.ofNat 0),
    trader_id_ := 6, quantity_ := -5, balance_ := -5, side_ := 0 }

/-- A frame `(IBM, P, 10, SELL)`. -/
def frame_P10 : transmission.order_t :=
  { stock_ := "IBM".toList ++ List.replicate 5 (Char.ofNat 0),
    trader_ := "P".toList ++ List.replicate 63 (Char.ofNat 0),
    trader_id_ := 7, quantity_ := 10, balance_ := 10, side_ := 1 }

/-- A frame `(IBM, Q, 4, BUY)`. -/
def frame_Q4 : transmission.order_t :=
  { stock_ := "IBM".toList ++ List.replicate 5 (Char.ofNat 0),
    trader_ := "Q".toList ++ List.replicate 63 (Char.ofNat 0),
    trader_id_ := 8, quantity_ := 4, balance_ := 4, side_ := 0 }

end trading

namespace concurrent

/-- The class `queue_t<T>`: the member `queue_`, a `std::queue`, front first.
The mutex and the condition variable have no content in the sequential view. -/
structure queue_t (T : Type) where
  queue_ : List T
  deriving DecidableEq, Repr

/-- The constructor `queue_t<T>::queue_t`: an empty queue. -/
def queue_t.empty (T : Type) : queue_t T := ⟨[]⟩

/-- The method `queue_t<T>::push`: the item goes to the back. -/
def queue_t.push {T : Type} (q : queue_t T) (t : T) : queue_t T :=
  ⟨q.queue_ ++ [t]⟩

/-- The method `queue_t<T>::pop_front`: the front item and the queue without
it.  On an empty queue the caller waits on the condition variable; with no
other thread that never ends, which is `none`. -/
def queue_t.pop_front {T : Type} (q : queue_t T) : Option (T × queue_t T) :=
  match q.queue_ with
  | [] => none
  | t :: rest => some (t, ⟨rest⟩)

/-- An operation on a queue. -/
inductive queue_op (T : Type) where
  | push (t : T)
  | pop_front
  deriving DecidableEq, Repr

/-- A sequence of operations on the queue `q`, with the items popped so far in
`popped`; `none` when a `pop_front` waits forever. -/
def run_ops {T : Type} : List (queue_op T) → queue_t T → List T → Option (List T × queue_t T)
  | [], q, popped => some (popped, q)
  | queue_op.push t :: ops, q, popped => run_ops ops (q.push t) popped
  | queue_op.pop_front :: ops, q, popped =>
    match q.pop_front with
    | none => none
    | some (t, q1) => run_ops ops q1 (popped ++ [t])

/-- The items pushed by a sequence of operations, in the order of the calls. -/
def pushed {T : Type} : List (queue_op T) → List T
  | [] => []
  | queue_op.push t :: ops => t :: pushed ops
  | queue_op.pop_front :: ops => pushed ops

/-- The number of `pop_front` calls of a sequence of operations. -/
def pops {T : Type} : List (queue_op T) → Nat
  | [] => 0
  | queue_op.push _ :: ops => pops ops
  | queue_op.pop_front :: ops => pops ops + 1

/-- Every `pop_front` of the sequence is issued on a queue that is not empty,
when the sequence starts on a queue of `n` items. -/
def pops_on_nonempty {T : Type} : List (queue_op T) → Nat → Bool
  | [], _ => true
  | queue_op.push _ :: ops, n => pops_on_nonempty ops (n + 1)
  | queue_op.pop_front :: _, 0 => false
  | queue_op.pop_front :: ops, n + 1 => pops_on_nonempty ops n

end concurrent

namespace trading

/-- The value of a `side_t` converted to `int`: `buy` is 0, `sell` is 1. -/
def side_t.to_int : side_t → Int
  | side_t.buy => 0
  | side_t.sell => 1

end trading

namespace transmission

/-- The call `strcpy(dst, src.c_str())` on the character array `dst`: the
characters of `src` before its first NUL, a NUL, and the old content of the
array behind them.  The source overruns an array that is too short; the
embedding then returns a longer list. -/
def strcpy (dst : List Char) (src : String) : List Char :=
  src.toList.takeWhile (fun c => c != Char.ofNat 0) ++ [Char.ofNat 0] ++
    dst.drop ((src.toList.takeWhile (fun c => c != Char.ofNat 0)).length + 1)

/-- The constructor `transmission::order_t(const trading::order_ptr&)`.  The
character arrays are not initialised before `strcpy`; `stock0` and `trader0`
are their content at that point. -/
def order_t.of_order_ptr (stock0 trader0 : List Char) (order : trading.order_ptr) :
    order_t :=
  { trader_id_ := order.trader_id, quantity_ := order.quantity,
    balance_ := order.balance, side_ := order.side.to_int,
    stock_ := strcpy stock0 order.stock, trader_ := strcpy trader0 order.trader }

/-- The four bytes of an `int`, least significant first. -/
def int_bytes (x : Int) : List Nat :=
  [(x % 4294967296).toNat % 256, (x % 4294967296).toNat / 256 % 256,
    (x % 4294967296).toNat / 65536 % 256, (x % 4294967296).toNat / 16777216 % 256]

/-- The bytes of a frame in memory, as `read` fills them and `write` sends
them: the two character arrays, then the four `int` members. -/
def order_t.bytes (ord : order_t) : List Nat :=
  ord.stock_.map (fun c => c.toNat % 256) ++ ord.trader_.map (fun c => c.toNat % 256) ++
    int_bytes ord.trader_id_ ++ int_bytes ord.quantity_ ++ int_bytes ord.balance_ ++
    int_bytes ord.side_

/-- The value of `sizeof(transmission::order_t)`: `char[8]`, `char[64]` and four
`int` members of four bytes. -/
def sizeof_order_t : Nat := 8 + 64 + 4 + 4 + 4 + 4

end transmission

namespace trading

/-- The struct `conn_info_t`, with `addr` the identity of the shared object;
the mutex has no content in the sequential view. -/
structure conn_info_t where
  addr : Nat
  trader_id_ : Int
  socket_ : Int
  deriving DecidableEq, Repr

/-- A shared pointer to a connection record. -/
abbrev conn_info_ptr := conn_info_t

/-- The multi index container `conn_info_table_t`, in insertion order.  Index 0
is `TRADER_INDEX`, unique on `trader_id_`; index 1 is `SOCKET_INDEX`, unique on
`socket_`. -/
abbrev conn_info_table_t := List conn_info_ptr

/-- The call `conn_info_table_.insert(cip)`: an element is refused when one of
the two unique indices holds its key already. -/
def conn_info_table_insert (t : conn_info_table_t) (cip : conn_info_ptr) :
    conn_info_table_t :=
  if t.any (fun c => decide (c.trader_id_ = cip.trader_id_ ∨ c.socket_ = cip.socket_)) = true
  then t else t ++ [cip]

/-- The call `conn_info_table_.erase(key)`.  Member functions of a multi index
container are those of its index 0, here `TRADER_INDEX`: the element whose
`trader_id_` is `key` is erased. -/
def conn_info_table_erase (t : conn_info_table_t) (key : Int) : conn_info_table_t :=
  t.filter (fun c => decide (c.trader_id_ ≠ key))

/-- An operation on the connection table. -/
inductive conn_info_table_op where
  | insert (cip : conn_info_ptr)
  | erase (key : Int)
  deriving DecidableEq, Repr

/-- A sequence of operations on the connection table. -/
def conn_info_table_run : List conn_info_table_op → conn_info_table_t → conn_info_table_t
  | [], t => t
  | conn_info_table_op.insert cip :: ops, t =>
    conn_info_table_run ops (conn_info_table_insert t cip)
  | conn_info_table_op.erase key :: ops, t =>
    conn_info_table_run ops (conn_info_table_erase t key)

/-- The characters `isspace` accepts. -/
def is_space (c : Char) : Bool :=
  decide (c.toNat = 32 ∨ (9 ≤ c.toNat ∧ c.toNat ≤ 13))

/-- The digits at the head of a character sequence, read in base 10 after the
value `acc`. -/
def atoi_digits : List Char → Int → Int
  | [], acc => acc
  | c :: cs, acc =>
    if 48 ≤ c.toNat ∧ c.toNat ≤ 57 then atoi_digits cs (acc * 10 + (c.toNat - 48 : Nat))
    else acc

/-- The library function `atoi` on a character array: white space, an optional
sign, then digits up to the first other character; 0 when there is no digit.
The source reads past the end of an array made of digits only; the embedding
stops at the end of the array. -/
def atoi (buf : List Char) : Int :=
  match buf.dropWhile is_space with
  | [] => 0
  | c :: cs =>
    if c.toNat = 45 then -(atoi_digits cs 0)
    else if c.toNat = 43 then atoi_digits cs 0
    else atoi_digits (c :: cs) 0

/-- The members of `socket_server_t` the reader and the processor work on,
with `closed` the sockets passed to `close` and `next_addr` the next address
`make_shared` hands out. -/
structure socket_server_t where
  work_queue_ : concurrent.queue_t order_ptr
  order_manager_ : order_table_t
  conn_info_table_ : conn_info_table_t
  closed : List Int
  next_addr : Nat
  deriving DecidableEq, Repr

/-- A server with nothing queued, stored, registered or closed. -/
def socket_server_t.start : socket_server_t :=
  ⟨concurrent.queue_t.empty order_ptr, [], [], [], 0⟩

/-- One call of `read` on a socket: the value returned and the content of the
buffer after the call. -/
structure read_t (B : Type) where
  n : Int
  buf : B
  deriving DecidableEq, Repr

/-- The inner loop `for (;;)` of `reader_thread` on the connection record
`cip`.  The reads of the socket are given in order; when they are used up the
reader waits in `read`. -/
def reader_loop (cip : conn_info_ptr) :
    List (read_t transmission.order_t) → socket_server_t → socket_server_t
  | [], s => s
  | r :: reads, s =>
    if r.n = 0 then
      { s with conn_info_table_ := conn_info_table_erase s.conn_info_table_ cip.socket_,
               closed := s.closed ++ [cip.socket_] }
    else if r.n ≠ (transmission.sizeof_order_t : Int) then
      s
    else
      reader_loop cip reads
        { s with work_queue_ := s.work_queue_.push (reader_order s.next_addr cip.addr r.buf),
                 next_addr := s.next_addr + 1 }

/-- One round of the outer loop of `reader_thread` for the socket popped from
`sockets_`: the read of the trader id, the registration of a new connection
record, and the inner loop. -/
def reader_thread (socket : Int) (trader_id_read : read_t (List Char))
    (reads : List (read_t transmission.order_t)) (s : socket_server_t) : socket_server_t :=
  if trader_id_read.n ≠ 8 then
    s
  else
    reader_loop ⟨s.next_addr, atoi trader_id_read.buf, socket⟩ reads
      { s with conn_info_table_ :=
                 conn_info_table_insert s.conn_info_table_
                   ⟨s.next_addr, atoi trader_id_read.buf, socket⟩,
               next_addr := s.next_addr + 1 }

/-- The frame loop of a reader is still running after the given reads: none of
them returned zero bytes or a short count, and the reader waits in `read`. -/
def reader_loop_waits : List (read_t transmission.order_t) → Bool
  | [] => true
  | r :: reads =>
    if r.n = 0 then false
    else if r.n ≠ (transmission.sizeof_order_t : Int) then false
    else reader_loop_waits reads

/-- The record the local shared pointer `cip` of `reader_thread` holds after
the given reads on the socket: the record created after the handshake while the
frame loop is running, and none once the loop is left or when the handshake
read was short. -/
def reader_thread_cip (socket : Int) (trader_id_read : read_t (List Char))
    (reads : List (read_t transmission.order_t)) (s : socket_server_t) :
    Option conn_info_ptr :=
  if trader_id_read.n ≠ 8 then none
  else if reader_loop_waits reads = true then
    some ⟨s.next_addr, atoi trader_id_read.buf, socket⟩
  else none

/-- The accessor `order_t::conn_info`, which locks the weak pointer: the record
the order points to, when a shared pointer to it is alive.  The shared pointers
to connection records are those in the connection table and, in `readers`, the
local `cip` of every reader that is in its frame loop. -/
def order_t.lock_conn_info (s : socket_server_t) (readers : List conn_info_ptr)
    (order : order_ptr) : Option conn_info_ptr :=
  match order.conn_info with
  | none => none
  | some a => (s.conn_info_table_ ++ readers).find? (fun c => decide (c.addr = a))

/-! ## Scenario frames and connections -/

/-- A character array of `size` characters holding `text` and NUL behind. -/
def padded (text : String) (size : Nat) : List Char :=
  text.toList ++ List.replicate (size - text.length) (Char.ofNat 0)

/-- A frame `(IBM, S, 10)` whose side field is 7. -/
def frame_side7 : transmission.order_t :=
  { stock_ := padded "IBM" 8, trader_ := padded "S" 64,
    trader_id_ := 9, quantity_ := 10, balance_ := 10, side_ := 7 }

/-- A connection record of trader 100 on socket 5. -/
def conn_c : conn_info_ptr := ⟨0, 100, 5⟩

/-- A connection record of trader 5 on socket 9. -/
def conn_d : conn_info_ptr := ⟨1, 5, 9⟩

/-- A server on which only `conn_c` is registered. -/
def server_c : socket_server_t :=
  { socket_server_t.start with conn_info_table_ := [conn_c], next_addr := 1 }

/-- A server on which `conn_d` and `conn_c` are registered. -/
def server_dc : socket_server_t :=
  { socket_server_t.start with conn_info_table_ := [conn_d, conn_c], next_addr := 2 }

/-- The notified order `(IBM, A, 100, BUY)` of scenario S2, balance 0. -/
def order_A_filled : order_ptr := { order_A with balance := 0 }

/-! ## The processor -/

/-- The loop `for (size_t i = 0; i < to_notify.size(); ++i)` of
`processor_thread`: the calls of `write`, in order, each with the socket and
the frame written.  An order whose weak pointer does not lock is passed over.
The arrays of every frame hold `stock0` and `trader0` before `strcpy`;
`readers` are the records held by readers in their frame loop. -/
def processor_notify (stock0 trader0 : List Char) (readers : List conn_info_ptr)
    (s : socket_server_t) : List order_ptr → List (Int × transmission.order_t)
  | [] => []
  | order :: rest =>
    match order_t.lock_conn_info s readers order with
    | none => processor_notify stock0 trader0 readers s rest
    | some conn =>
      (conn.socket_, transmission.order_t.of_order_ptr stock0 trader0 order) ::
        processor_notify stock0 trader0 readers s rest

/-- One round of the loop of `processor_thread`: the order at the front of the
work queue goes through `process_order` with a fresh notification list, then
the notifications are written.  `none` when the work queue is empty and the
processor waits in `pop_front`. -/
def processor_thread (stock0 trader0 : List Char) (readers : List conn_info_ptr)
    (s : socket_server_t) : Option (socket_server_t × List (Int × transmission.order_t)) :=
  match s.work_queue_.pop_front with
  | none => none
  | some (order, q) =>
    some ({ s with work_queue_ := q,
                   order_manager_ :=
                     (order_manager_t.process_order s.order_manager_ order []).orders_ },
      processor_notify stock0 trader0 readers
        { s with work_queue_ := q,
                 order_manager_ :=
                   (order_manager_t.process_order s.order_manager_ order []).orders_ }
        (order_manager_t.process_order s.order_manager_ order []).to_notify)

/-! ## The match loop over unbounded integers -/

/-- The loop of `process_order` with the two differences `rhs_bal` and
`lhs_bal` taken over the unbounded integers. -/
def match_loop_unbounded (stock : String) (other_side : side_t) :
    List order_ptr → order_ptr → Bool → orders_t → loop_result
  | [], order, must_add, to_notify => ⟨[], order, must_add, to_notify⟩
  | rhs :: rest, order, must_add, to_notify =>
    if ssi_key stock other_side rhs = true then
      let rhs_bal := rhs.balance - order.balance
      let lhs_bal := order.balance - rhs.balance
      let kept : List order_ptr :=
        if rhs_bal ≤ 0 then [] else [{ rhs with balance := rhs_bal }]
      let to_notify1 : orders_t :=
        if rhs_bal ≤ 0 then to_notify ++ [{ rhs with balance := 0 }] else to_notify
      if lhs_bal ≤ 0 then
        ⟨kept ++ rest, { order with balance := 0 }, false,
          to_notify1 ++ [{ order with balance := 0 }]⟩
      else
        let r := match_loop_unbounded stock other_side rest
          { order with balance := lhs_bal } true to_notify1
        ⟨kept ++ r.orders_, r.order, r.must_add, r.to_notify⟩
    else
      let r := match_loop_unbounded stock other_side rest order must_add to_notify
      ⟨rhs :: r.orders_, r.order, r.must_add, r.to_notify⟩

/-- The method `process_order` with the differences of the loop taken over the
unbounded integers. -/
def process_order_unbounded (orders_ : order_table_t) (order : order_ptr)
    (to_notify : orders_t) : process_result :=
  let other_side := reverse_side order.side
  if equal_range orders_ order.stock other_side = [] then
    ⟨orders_ ++ [order], order, to_notify⟩
  else
    let r := match_loop_unbounded order.stock other_side orders_ order false to_notify
    if r.must_add = true then
      ⟨r.orders_ ++ [r.order], r.order, r.to_notify⟩
    else
      ⟨r.orders_, r.order, r.to_notify⟩

/-- Sum of the balances of the orders of `l` with the given stock and side. -/
def sum_balance (stock : String) (side : side_t) (l : List order_ptr) : Int :=
  ((equal_range l stock side).map (fun x => x.balance)).sum

/-- The order `x` with its balance cleared. -/
def cleared (x : order_ptr) : order_ptr := { x with balance := 0 }

/-! ## Scenario orders of the processor -/

/-- The record of a second connection of trader 100, on socket 6, which the
connection table refuses. -/
def conn_dup : conn_info_ptr := ⟨2, 100, 6⟩

/-- The server after trader 100 on socket 5 has sent `(IBM, P, 10, SELL)` and
the processor has stored that order. -/
def server_sold : socket_server_t :=
  { socket_server_t.start with
    order_manager_ := [order_t.make 1 "IBM" "P" 7 10 side_t.sell (some 0)],
    conn_info_table_ := [⟨0, 100, 5⟩], next_addr := 2 }

/-- The server `server_sold` after a second connection of trader 100, on socket
6, has sent `(IBM, Q, 4, BUY)`: the order waits in the work queue. -/
def server_dup : socket_server_t :=
  { server_sold with
    work_queue_ := ⟨[order_t.make 3 "IBM" "Q" 8 4 side_t.buy (some 2)]⟩, next_addr := 4 }

/-- An order `(DEL, E, 25, SELL)`. -/
def order_E25 : order_ptr := order_t.make 6 "DEL" "E" 6 25 side_t.sell none

/-! ## Arithmetic of `int` -/

theorem wrap32_eq_self {x : Int} (h1 : INT_MIN ≤ x) (h2 : x ≤ INT_MAX) : wrap32 x = x := by
  unfold INT_MIN at h1
  unfold INT_MAX at h2
  unfold wrap32
  omega

theorem int_sub_eq {a b : Int} (h1 : INT_MIN ≤ a - b) (h2 : a - b ≤ INT_MAX) :
    int_sub a b = a - b :=
  wrap32_eq_self h1 h2

theorem int_sub_self (a : Int) : int_sub a a = 0 := by
  unfold int_sub wrap32
  omega

theorem int_sub_neg_of_pos {a b : Int} (h : 0 < int_sub a b) : int_sub b a < 0 := by
  unfold int_sub wrap32 at *
  omega

/-! ## The loop of `process_order` -/

theorem equal_range_cons_of_key {stock : String} {side : side_t} {rhs : order_ptr}
    (rest : List order_ptr) (h : ssi_key stock side rhs = true) :
    equal_range (rhs :: rest) stock side = rhs :: equal_range rest stock side := by
  simp [equal_range, List.filter_cons, h]

theorem equal_range_cons_of_not_key {stock : String} {side : side_t} {rhs : order_ptr}
    (rest : List order_ptr) (h : ssi_key stock side rhs = false) :
    equal_range (rhs :: rest) stock side = equal_range rest stock side := by
  simp [equal_range, List.filter_cons, h]

/-- Case analysis of the loop.  A property `Q rest order tn f o n` of the input
(the table from the iterator on, the incoming order, the notification list)
and of the output (final table, incoming order, notification list) holds of
every run of the loop that inserts or notifies the incoming order, as soon as
it is preserved by the five ways an iteration can go. -/
theorem match_loop_cases (stock : String) (side : side_t)
    (Q : List order_ptr → order_ptr → orders_t → order_table_t → order_ptr → orders_t → Prop)
    (h_end : ∀ order tn, Q [] order tn [order] order tn)
    (h_skip : ∀ rhs rest order tn f o n, ssi_key stock side rhs = false →
      Q rest order tn f o n → Q (rhs :: rest) order tn (rhs :: f) o n)
    (h_both : ∀ rhs rest order tn, ssi_key stock side rhs = true →
      int_sub rhs.balance order.balance ≤ 0 → int_sub order.balance rhs.balance ≤ 0 →
      Q (rhs :: rest) order tn rest { order with balance := 0 }
        (tn ++ [{ rhs with balance := 0 }] ++ [{ order with balance := 0 }]))
    (h_order : ∀ rhs rest order tn, ssi_key stock side rhs = true →
      0 < int_sub rhs.balance order.balance → int_sub order.balance rhs.balance < 0 →
      Q (rhs :: rest) order tn
        ({ rhs with balance := int_sub rhs.balance order.balance } :: rest)
        { order with balance := 0 } (tn ++ [{ order with balance := 0 }]))
    (h_rhs : ∀ rhs rest order tn f o n, ssi_key stock side rhs = true →
      int_sub rhs.balance order.balance ≤ 0 → 0 < int_sub order.balance rhs.balance →
      Q rest { order with balance := int_sub order.balance rhs.balance }
        (tn ++ [{ rhs with balance := 0 }]) f o n →
      Q (rhs :: rest) order tn f o n) :
    ∀ (rest : List order_ptr) (order : order_ptr) (m : Bool) (tn : orders_t),
      (m = true ∨ equal_range rest stock side ≠ []) →
      Q rest order tn (match_loop stock side rest order m tn).final_orders
        (match_loop stock side rest order m tn).order
        (match_loop stock side rest order m tn).to_notify := by
  intro rest
  induction rest with
  | nil =>
    intro order m tn h
    have hm : m = true := by
      rcases h with h | h
      · exact h
      · exact absurd rfl h
    subst hm
    simpa [match_loop, loop_result.final_orders] using h_end order tn
  | cons rhs rest ih =>
    intro order m tn h
    by_cases hk : ssi_key stock side rhs = true
    · by_cases hl : int_sub order.balance rhs.balance ≤ 0
      · by_cases hr : int_sub rhs.balance order.balance ≤ 0
        · simpa [match_loop, hk, hl, hr, loop_result.final_orders]
            using h_both rhs rest order tn hk hr hl
        · have hl2 : int_sub order.balance rhs.balance < 0 :=
            int_sub_neg_of_pos (not_le.mp hr)
          simpa [match_loop, hk, hl, hr, loop_result.final_orders]
            using h_order rhs rest order tn hk (not_le.mp hr) hl2
      · have hr : int_sub rhs.balance order.balance ≤ 0 := by
          by_contra hc
          exact hl (le_of_lt (int_sub_neg_of_pos (not_le.mp hc)))
        have h1 := ih { order with balance := int_sub order.balance rhs.balance } true
          (tn ++ [{ rhs with balance := 0 }]) (Or.inl rfl)
        have h2 := h_rhs rhs rest order tn _ _ _ hk hr (not_le.mp hl) h1
        simpa [match_loop, hk, hl, hr, loop_result.final_orders] using h2
    · have hk2 : ssi_key stock side rhs = false := by simpa using hk
      have h0 : m = true ∨ equal_range rest stock side ≠ [] := by
        rcases h with h | h
        · exact Or.inl h
        · rw [equal_range_cons_of_not_key rest hk2] at h
          exact Or.inr h
      have h1 := h_skip rhs rest order tn _ _ _ hk2 (ih order m tn h0)
      by_cases hm : (match_loop stock side rest order m tn).must_add = true
      · simpa [match_loop, hk2, loop_result.final_orders, hm] using h1
      · simpa [match_loop, hk2, loop_result.final_orders, hm] using h1

/-- Case analysis of `process_order`: the property `Q` of `match_loop_cases`,
for the key of the incoming order, holds of every call. -/
theorem process_order_cases (order : order_ptr)
    (Q : List order_ptr → order_ptr → orders_t → order_table_t → order_ptr → orders_t → Prop)
    (h_end : ∀ o tn, Q [] o tn [o] o tn)
    (h_skip : ∀ rhs rest o tn f o1 n,
      ssi_key order.stock (reverse_side order.side) rhs = false →
      Q rest o tn f o1 n → Q (rhs :: rest) o tn (rhs :: f) o1 n)
    (h_both : ∀ rhs rest o tn, ssi_key order.stock (reverse_side order.side) rhs = true →
      int_sub rhs.balance o.balance ≤ 0 → int_sub o.balance rhs.balance ≤ 0 →
      Q (rhs :: rest) o tn rest { o with balance := 0 }
        (tn ++ [{ rhs with balance := 0 }] ++ [{ o with balance := 0 }]))
    (h_order : ∀ rhs rest o tn, ssi_key order.stock (reverse_side order.side) rhs = true →
      0 < int_sub rhs.balance o.balance → int_sub o.balance rhs.balance < 0 →
      Q (rhs :: rest) o tn
        ({ rhs with balance := int_sub rhs.balance o.balance } :: rest)
        { o with balance := 0 } (tn ++ [{ o with balance := 0 }]))
    (h_rhs : ∀ rhs rest o tn f o1 n,
      ssi_key order.stock (reverse_side order.side) rhs = true →
      int_sub rhs.balance o.balance ≤ 0 → 0 < int_sub o.balance rhs.balance →
      Q rest { o with balance := int_sub o.balance rhs.balance }
        (tn ++ [{ rhs with balance := 0 }]) f o1 n →
      Q (rhs :: rest) o tn f o1 n)
    (orders_ : order_table_t) (to_notify : orders_t) :
    Q orders_ order to_notify
      (order_manager_t.process_order orders_ order to_notify).orders_
      (order_manager_t.process_order orders_ order to_notify).order
      (order_manager_t.process_order orders_ order to_notify).to_notify := by
  by_cases he : equal_range orders_ order.stock (reverse_side order.side) = []
  · have key : ∀ rest : List order_ptr,
        equal_range rest order.stock (reverse_side order.side) = [] →
        Q rest order to_notify (rest ++ [order]) order to_notify := by
      intro rest
      induction rest with
      | nil => intro _; exact h_end order to_notify
      | cons rhs rest ih =>
        intro h
        have hk : ssi_key order.stock (reverse_side order.side) rhs = false := by
          by_contra hc
          have hc2 : ssi_key order.stock (reverse_side order.side) rhs = true := by
            simpa using hc
          rw [equal_range_cons_of_key rest hc2] at h
          exact List.cons_ne_nil _ _ h
        rw [equal_range_cons_of_not_key rest hk] at h
        exact h_skip rhs rest order to_notify _ _ _ hk (ih h)
    simpa [order_manager_t.process_order, he] using key orders_ he
  · have h1 := match_loop_cases order.stock (reverse_side order.side) Q h_end h_skip
      h_both h_order h_rhs orders_ order false to_notify (Or.inr he)
    by_cases hm : (match_loop order.stock (reverse_side order.side) orders_ order false
        to_notify).must_add = true
    · simpa [order_manager_t.process_order, he, loop_result.final_orders, hm] using h1
    · simpa [order_manager_t.process_order, he, loop_result.final_orders, hm] using h1

/-- Elements ahead of the equal range are passed over by the loop. -/
theorem match_loop_append_of_not_key (stock : String) (side : side_t)
    (pre l : List order_ptr) (order : order_ptr) (m : Bool) (tn : orders_t)
    (h : ∀ x ∈ pre, ssi_key stock side x = false) :
    match_loop stock side (pre ++ l) order m tn =
      ⟨pre ++ (match_loop stock side l order m tn).orders_,
        (match_loop stock side l order m tn).order,
        (match_loop stock side l order m tn).must_add,
        (match_loop stock side l order m tn).to_notify⟩ := by
  induction pre with
  | nil => simp
  | cons x pre ih =>
    have hx : ssi_key stock side x = false := h x (List.mem_cons_self _ _)
    have ih2 := ih (fun y hy => h y (List.mem_cons_of_mem _ hy))
    simp [match_loop, hx, ih2]

theorem equal_range_append_cons_ne_nil (stock : String) (side : side_t)
    (pre post : List order_ptr) (R : order_ptr) (h : ssi_key stock side R = true) :
    equal_range (pre ++ R :: post) stock side ≠ [] := by
  intro hc
  have hm : R ∈ equal_range (pre ++ R :: post) stock side := by
    simp [equal_range, List.mem_filter, h]
  rw [hc] at hm
  exact List.not_mem_nil _ hm

/-! ## What a call does to the stored pointers -/

/-- The notification list grows at its end, every order appended has balance
zero, and the pointers of the final table together with those appended are the
pointers of the old table together with the incoming one. -/
theorem process_order_pointers (orders_ : order_table_t) (order : order_ptr)
    (to_notify : orders_t) :
    ∃ app : orders_t,
      (order_manager_t.process_order orders_ order to_notify).to_notify = to_notify ++ app ∧
      (∀ x ∈ app, x.balance = 0) ∧
      List.Perm
        (((order_manager_t.process_order orders_ order to_notify).orders_ ++ app).map
          order_t.addr)
        ((orders_ ++ [order]).map order_t.addr) := by
  refine process_order_cases order
    (fun rest o tn f _ n => ∃ app : orders_t, n = tn ++ app ∧ (∀ x ∈ app, x.balance = 0) ∧
      List.Perm ((f ++ app).map order_t.addr) ((rest ++ [o]).map order_t.addr))
    ?_ ?_ ?_ ?_ ?_ orders_ to_notify
  · intro o tn
    exact ⟨[], by simp, by simp, by simp⟩
  · rintro rhs rest o tn f o1 n _ ⟨app, h1, h2, h3⟩
    refine ⟨app, h1, h2, ?_⟩
    simpa using h3
  · intro rhs rest o tn _ _ _
    refine ⟨[{ rhs with balance := 0 }, { o with balance := 0 }], by simp, by simp, ?_⟩
    simp only [List.map_append, List.map_cons, List.map_nil, List.cons_append]
    exact (List.perm_middle).trans (List.Perm.refl _)
  · intro rhs rest o tn _ _ _
    exact ⟨[{ o with balance := 0 }], by simp, by simp, by simp⟩
  · rintro rhs rest o tn f o1 n _ _ _ ⟨app, h1, h2, h3⟩
    refine ⟨{ rhs with balance := 0 } :: app, by simp [h1], ?_, ?_⟩
    · intro x hx
      rcases List.mem_cons.mp hx with hx | hx
      · subst hx; rfl
      · exact h2 x hx
    · simp only [List.map_append, List.map_cons, List.cons_append]
      refine (List.perm_middle).trans ?_
      simpa using h3

/-- Stored orders outside of the equal range stay in the table, and the orders
behind a stored order of the equal range stay as they are unless that order is
erased and notified with balance zero. -/
theorem process_order_in_sequence (orders_ : order_table_t) (order : order_ptr)
    (to_notify : orders_t) :
    ∃ app : orders_t,
      (order_manager_t.process_order orders_ order to_notify).to_notify = to_notify ++ app ∧
      (∀ x ∈ orders_, ssi_key order.stock (reverse_side order.side) x = false →
        x ∈ (order_manager_t.process_order orders_ order to_notify).orders_) ∧
      (∀ (a : List order_ptr) (R1 : order_ptr) (tail : List order_ptr),
        orders_ = a ++ R1 :: tail →
        ssi_key order.stock (reverse_side order.side) R1 = true →
        (∀ x ∈ tail, x ∈ (order_manager_t.process_order orders_ order to_notify).orders_) ∨
          { R1 with balance := 0 } ∈ app) := by
  refine process_order_cases order
    (fun rest _ tn f _ n => ∃ app : orders_t, n = tn ++ app ∧
      (∀ x ∈ rest, ssi_key order.stock (reverse_side order.side) x = false → x ∈ f) ∧
      (∀ (a : List order_ptr) (R1 : order_ptr) (tail : List order_ptr),
        rest = a ++ R1 :: tail →
        ssi_key order.stock (reverse_side order.side) R1 = true →
        (∀ x ∈ tail, x ∈ f) ∨ { R1 with balance := 0 } ∈ app))
    ?_ ?_ ?_ ?_ ?_ orders_ to_notify
  · intro o tn
    refine ⟨[], by simp, by simp, ?_⟩
    intro a R1 tail h
    simp at h
  · rintro rhs rest o tn f o1 n hk ⟨app, h1, h2, h3⟩
    refine ⟨app, h1, ?_, ?_⟩
    · intro x hx hkx
      rcases List.mem_cons.mp hx with hx | hx
      · subst hx; exact List.mem_cons_self _ _
      · exact List.mem_cons_of_mem _ (h2 x hx hkx)
    · intro a R1 tail h hk1
      rcases List.cons_eq_append_iff.mp h with ⟨ha, hb⟩ | ⟨a2, ha, hb⟩
      · have : rhs = R1 := (List.cons.inj hb.symm).1
        subst this
        rw [hk] at hk1
        exact absurd hk1 (by simp)
      · rcases h3 a2 R1 tail hb hk1 with h4 | h4
        · exact Or.inl (fun x hx => List.mem_cons_of_mem _ (h4 x hx))
        · exact Or.inr h4
  · intro rhs rest o tn hk _ _
    refine ⟨[{ rhs with balance := 0 }, { o with balance := 0 }], by simp, ?_, ?_⟩
    · intro x hx hkx
      rcases List.mem_cons.mp hx with hx | hx
      · subst hx
        rw [hk] at hkx
        exact absurd hkx (by simp)
      · exact hx
    · intro a R1 tail h _
      rcases List.cons_eq_append_iff.mp h with ⟨ha, hb⟩ | ⟨a2, ha, hb⟩
      · have : rhs = R1 := (List.cons.inj hb.symm).1
        subst this
        exact Or.inr (List.mem_cons_self _ _)
      · refine Or.inl (fun x hx => ?_)
        rw [hb]
        exact List.mem_append_right _ (List.mem_cons_of_mem _ hx)
  · intro rhs rest o tn hk _ _
    refine ⟨[{ o with balance := 0 }], by simp, ?_, ?_⟩
    · intro x hx hkx
      rcases List.mem_cons.mp hx with hx | hx
      · subst hx
        rw [hk] at hkx
        exact absurd hkx (by simp)
      · exact List.mem_cons_of_mem _ hx
    · intro a R1 tail h _
      refine Or.inl (fun x hx => ?_)
      rcases List.cons_eq_append_iff.mp h with ⟨ha, hb⟩ | ⟨a2, ha, hb⟩
      · have ht : rest = tail := (List.cons.inj hb.symm).2
        rw [ht]
        exact List.mem_cons_of_mem _ hx
      · rw [hb]
        exact List.mem_cons_of_mem _ (List.mem_append_right _ (List.mem_cons_of_mem _ hx))
  · rintro rhs rest o tn f o1 n hk _ _ ⟨app, h1, h2, h3⟩
    refine ⟨{ rhs with balance := 0 } :: app, by simp [h1], ?_, ?_⟩
    · intro x hx hkx
      rcases List.mem_cons.mp hx with hx | hx
      · subst hx
        rw [hk] at hkx
        exact absurd hkx (by simp)
      · exact h2 x hx hkx
    · intro a R1 tail h hk1
      rcases List.cons_eq_append_iff.mp h with ⟨ha, hb⟩ | ⟨a2, ha, hb⟩
      · have : rhs = R1 := (List.cons.inj hb.symm).1
        subst this
        exact Or.inr (List.mem_cons_self _ _)
      · rcases h3 a2 R1 tail hb hk1 with h4 | h4
        · exact Or.inl h4
        · exact Or.inr (List.mem_cons_of_mem _ h4)

/-! ## Balances across a call -/

/-- With every balance between `lo` (zero or one) and the quantity before a
call, the same holds of the table after it, and the orders appended to the
notification list have balance zero and a quantity that is not negative. -/
theorem process_order_within (lo : Int) (h0 : 0 ≤ lo) (h1 : lo ≤ 1)
    (orders_ : order_table_t) (order : order_ptr) (to_notify : orders_t)
    (hrest : ∀ x ∈ orders_, within lo x) (ho : within lo order) :
    (∀ x ∈ (order_manager_t.process_order orders_ order to_notify).orders_, within lo x) ∧
    ∃ app : orders_t,
      (order_manager_t.process_order orders_ order to_notify).to_notify = to_notify ++ app ∧
      ∀ x ∈ app, x.balance = 0 ∧ 0 ≤ x.quantity := by
  refine process_order_cases order
    (fun rest o tn f _ n => (∀ x ∈ rest, within lo x) → within lo o →
      (∀ x ∈ f, within lo x) ∧
      ∃ app : orders_t, n = tn ++ app ∧ ∀ x ∈ app, x.balance = 0 ∧ 0 ≤ x.quantity)
    ?_ ?_ ?_ ?_ ?_ orders_ to_notify hrest ho
  · intro o tn _ ho
    refine ⟨?_, [], by simp, by simp⟩
    intro x hx
    rw [List.mem_singleton.mp hx]
    exact ho
  · intro rhs rest o tn f o1 n _ ih hr ho
    obtain ⟨g1, app, g2, g3⟩ := ih (fun x hx => hr x (List.mem_cons_of_mem _ hx)) ho
    refine ⟨?_, app, g2, g3⟩
    intro x hx
    rcases List.mem_cons.mp hx with hx | hx
    · rw [hx]; exact hr rhs (List.mem_cons_self _ _)
    · exact g1 x hx
  · intro rhs rest o tn _ _ _ hr ho
    have hrhs := hr rhs (List.mem_cons_self _ _)
    unfold within at hrhs ho
    refine ⟨fun x hx => hr x (List.mem_cons_of_mem _ hx),
      [{ rhs with balance := 0 }, { o with balance := 0 }], by simp, ?_⟩
    intro x hx
    simp only [List.mem_cons, List.mem_singleton, List.not_mem_nil, or_false] at hx
    rcases hx with hx | hx <;> subst hx <;> constructor <;> simp <;> omega
  · intro rhs rest o tn _ hpos _ hr ho
    have hrhs := hr rhs (List.mem_cons_self _ _)
    unfold within at hrhs ho
    have he : int_sub rhs.balance o.balance = rhs.balance - o.balance := by
      apply int_sub_eq <;> simp only [INT_MIN, INT_MAX] at * <;> omega
    rw [he] at hpos ⊢
    refine ⟨?_, [{ o with balance := 0 }], by simp, ?_⟩
    · intro x hx
      rcases List.mem_cons.mp hx with hx | hx
      · subst hx
        unfold within
        simp only
        omega
      · exact hr x (List.mem_cons_of_mem _ hx)
    · intro x hx
      rw [List.mem_singleton.mp hx]
      refine ⟨rfl, ?_⟩
      simp only
      omega
  · intro rhs rest o tn f o1 n _ _ hpos ih hr ho
    have hrhs := hr rhs (List.mem_cons_self _ _)
    have he : int_sub o.balance rhs.balance = o.balance - rhs.balance := by
      unfold within at hrhs ho
      apply int_sub_eq <;> simp only [INT_MIN, INT_MAX] at * <;> omega
    rw [he] at hpos ih
    have ho2 : within lo { o with balance := o.balance - rhs.balance } := by
      unfold within at hrhs ho ⊢
      simp only
      omega
    obtain ⟨g1, app, g2, g3⟩ := ih (fun x hx => hr x (List.mem_cons_of_mem _ hx)) ho2
    refine ⟨g1, { rhs with balance := 0 } :: app, by simp [g2], ?_⟩
    intro x hx
    rcases List.mem_cons.mp hx with hx | hx
    · subst hx
      unfold within at hrhs
      refine ⟨rfl, ?_⟩
      simp only
      omega
    · exact g3 x hx

/-! ## Filled quantities across a call -/

theorem filled_nil (t : String) (s : side_t) : filled t s [] = 0 := by
  simp [filled]

theorem filled_cons (t : String) (s : side_t) (x : order_ptr) (l : List order_ptr) :
    filled t s (x :: l) =
      (if x.stock = t ∧ x.side = s then x.quantity - x.balance else 0) + filled t s l := by
  by_cases h : x.stock = t ∧ x.side = s
  · simp [filled, List.filter_cons, ssi_key, h]
  · simp [filled, List.filter_cons, ssi_key, h]

theorem filled_append (t : String) (s : side_t) (l1 l2 : List order_ptr) :
    filled t s (l1 ++ l2) = filled t s l1 + filled t s l2 := by
  simp [filled, List.filter_append]

theorem filled_eq_notified_quantity (t : String) (s : side_t) (l : List order_ptr)
    (h : ∀ x ∈ l, x.balance = 0) : filled t s l = notified_quantity t s l := by
  induction l with
  | nil => simp [filled, notified_quantity]
  | cons x l ih =>
    have hx := h x (List.mem_cons_self _ _)
    have ih2 := ih (fun y hy => h y (List.mem_cons_of_mem _ hy))
    unfold filled notified_quantity at ih2 ⊢
    by_cases hk : ssi_key t s x = true
    · simp [List.filter_cons, hk, hx, ih2]
    · simp [List.filter_cons, hk, ih2]

theorem int_sub_both_le_zero {a b : Int} (ha : 0 ≤ a ∧ a ≤ INT_MAX) (hb : 0 ≤ b ∧ b ≤ INT_MAX)
    (h1 : int_sub a b ≤ 0) (h2 : int_sub b a ≤ 0) : a = b := by
  have e1 : int_sub a b = a - b := by
    apply int_sub_eq <;> simp only [INT_MIN, INT_MAX] at * <;> omega
  have e2 : int_sub b a = b - a := by
    apply int_sub_eq <;> simp only [INT_MIN, INT_MAX] at * <;> omega
  omega

/-- A call raises the filled quantity of the buy side and of the sell side of
each stock by the same amount, when no balance is negative. -/
theorem process_order_filled (orders_ : order_table_t) (order : order_ptr)
    (to_notify : orders_t)
    (hrest : ∀ x ∈ orders_, 0 ≤ x.balance ∧ x.balance ≤ INT_MAX)
    (ho : 0 ≤ order.balance ∧ order.balance ≤ INT_MAX) :
    ∃ app : orders_t,
      (order_manager_t.process_order orders_ order to_notify).to_notify = to_notify ++ app ∧
      ∀ t : String,
        filled t side_t.buy
            ((order_manager_t.process_order orders_ order to_notify).orders_ ++ app) -
          filled t side_t.sell
            ((order_manager_t.process_order orders_ order to_notify).orders_ ++ app) =
        filled t side_t.buy (orders_ ++ [order]) -
          filled t side_t.sell (orders_ ++ [order]) := by
  refine process_order_cases order
    (fun rest o tn f _ n => (∀ x ∈ rest, 0 ≤ x.balance ∧ x.balance ≤ INT_MAX) →
      (0 ≤ o.balance ∧ o.balance ≤ INT_MAX) → o.stock = order.stock → o.side = order.side →
      ∃ app : orders_t, n = tn ++ app ∧ ∀ t : String,
        filled t side_t.buy (f ++ app) - filled t side_t.sell (f ++ app) =
        filled t side_t.buy (rest ++ [o]) - filled t side_t.sell (rest ++ [o]))
    ?_ ?_ ?_ ?_ ?_ orders_ to_notify hrest ho rfl rfl
  · intro o tn _ _ _ _
    exact ⟨[], by simp, by simp⟩
  · intro rhs rest o tn f o1 n _ ih hr ho hst hsd
    obtain ⟨app, g1, g2⟩ := ih (fun x hx => hr x (List.mem_cons_of_mem _ hx)) ho hst hsd
    refine ⟨app, g1, fun t => ?_⟩
    have g3 := g2 t
    simp only [List.cons_append, filled_cons] at g3 ⊢
    omega
  · intro rhs rest o tn hk h1 h2 hr ho hst hsd
    have hrhs := hr rhs (List.mem_cons_self _ _)
    have heq := int_sub_both_le_zero hrhs ho h1 h2
    simp only [ssi_key, decide_eq_true_eq] at hk
    refine ⟨[{ rhs with balance := 0 }, { o with balance := 0 }], by simp, fun t => ?_⟩
    simp only [List.cons_append, filled_cons, filled_append, filled_nil, hk.1, hk.2, hst, hsd]
    generalize order.side = sd
    cases sd <;> by_cases ht : order.stock = t <;> simp [reverse_side, ht] <;> omega
  · intro rhs rest o tn hk h1 _ hr ho hst hsd
    have hrhs := hr rhs (List.mem_cons_self _ _)
    have he : int_sub rhs.balance o.balance = rhs.balance - o.balance := by
      apply int_sub_eq <;> simp only [INT_MIN, INT_MAX] at * <;> omega
    simp only [ssi_key, decide_eq_true_eq] at hk
    refine ⟨[{ o with balance := 0 }], by simp, fun t => ?_⟩
    simp only [List.cons_append, filled_cons, filled_append, filled_nil, hk.1, hk.2, hst, hsd, he]
    generalize order.side = sd
    cases sd <;> by_cases ht : order.stock = t <;> simp [reverse_side, ht] <;> omega
  · intro rhs rest o tn f o1 n hk _ hpos ih hr ho hst hsd
    have hrhs := hr rhs (List.mem_cons_self _ _)
    have he : int_sub o.balance rhs.balance = o.balance - rhs.balance := by
      apply int_sub_eq <;> simp only [INT_MIN, INT_MAX] at * <;> omega
    rw [he] at hpos ih
    obtain ⟨app, g1, g2⟩ := ih (fun x hx => hr x (List.mem_cons_of_mem _ hx))
      (by simp only [INT_MAX] at *; omega) hst hsd
    simp only [ssi_key, decide_eq_true_eq] at hk
    refine ⟨{ rhs with balance := 0 } :: app, by simp [g1], fun t => ?_⟩
    have g3 := g2 t
    simp only [List.cons_append, filled_cons, filled_append, filled_nil, hk.1, hk.2, hst,
      hsd] at g3 ⊢
    revert g3
    generalize order.side = sd
    cases sd <;> by_cases ht : order.stock = t <;> simp [reverse_side, ht] <;> intro g3 <;> omega

/-! ## Sequences of calls from the empty table -/

theorem run_append_singleton (os : List order_ptr) (o : order_ptr) :
    run (os ++ [o]) = submit (run os) o := by
  simp [run, List.foldl_append]

/-- A property of the server state that holds of the empty state and that
every call preserves, for incoming orders satisfying `P`, holds after every
sequence of such orders. -/
theorem run_invariant (P : order_ptr → Prop) (J : List order_ptr → server_state → Prop)
    (h_init : J [] ⟨[], []⟩)
    (h_step : ∀ os s o, J os s → P o → J (os ++ [o]) (submit s o))
    (os : List order_ptr) (hP : ∀ o ∈ os, P o) : J os (run os) := by
  induction os using List.reverseRecOn with
  | nil => exact h_init
  | append_singleton os o ih =>
    rw [run_append_singleton]
    exact h_step os (run os) o (ih (fun x hx => hP x (List.mem_append_left _ hx)))
      (hP o (List.mem_append_right _ (List.mem_singleton_self o)))

/-- Bounds of the balances after a sequence of calls: resting orders lie within
`lo` and their quantity, notified orders have balance zero and a quantity that
is not negative. -/
theorem run_within (lo : Int) (h0 : 0 ≤ lo) (h1 : lo ≤ 1) (os : List order_ptr)
    (h : ∀ o ∈ os, within lo o) :
    (∀ x ∈ (run os).orders_, within lo x) ∧
    (∀ x ∈ (run os).notified, x.balance = 0 ∧ 0 ≤ x.quantity) := by
  refine run_invariant (within lo)
    (fun _ s => (∀ x ∈ s.orders_, within lo x) ∧
      (∀ x ∈ s.notified, x.balance = 0 ∧ 0 ≤ x.quantity)) ?_ ?_ os h
  · simp
  · rintro _ s o ⟨j1, j2⟩ ho
    obtain ⟨g1, app, g2, g3⟩ := process_order_within lo h0 h1 s.orders_ o [] j1 ho
    refine ⟨g1, ?_⟩
    intro x hx
    simp only [submit, g2, List.nil_append, List.mem_append] at hx
    rcases hx with hx | hx
    · exact j2 x hx
    · exact g3 x hx

/-! ## Single calls of `process_order` -/

/-- C1: when the table holds no order with the stock of the incoming order and
the reverse side, `process_order` appends nothing to the notification list,
keeps every stored order as it is, and the table becomes the old table followed
by the incoming order with its balance unchanged. -/
theorem process_order_no_opposite (orders_ : order_table_t) (order : order_ptr)
    (to_notify : orders_t)
    (h : ∀ x ∈ orders_, ¬ (x.stock = order.stock ∧ x.side = reverse_side order.side)) :
    order_manager_t.process_order orders_ order to_notify =
      ⟨orders_ ++ [order], order, to_notify⟩ := by
  have he : equal_range orders_ order.stock (reverse_side order.side) = [] := by
    simp only [equal_range, List.filter_eq_nil_iff]
    intro x hx
    simpa [ssi_key] using h x hx
  simp [order_manager_t.process_order, he]

/-- Scenarios S1 and S5 as instances of C1: the empty table, and a table with
a resting order of the same side. -/
theorem process_order_no_opposite_witness :
    (∀ x ∈ [order_A], ¬ (x.stock = order_D.stock ∧ x.side = reverse_side order_D.side)) ∧
    order_manager_t.process_order [order_A] order_D [] =
      ⟨[order_A, order_D], order_D, []⟩ :=
  ⟨by decide, process_order_no_opposite [order_A] order_D [] (by decide)⟩

/-- C2: exact fill.  When the first order `R` of the equal range and the
incoming order `I` both have balance `q > 0`, `process_order` erases `R`, does
not insert `I`, clears both balances and appends exactly `R` then `I` to the
notification list; every other stored order stays as it is. -/
theorem process_order_exact_fill (pre post : List order_ptr) (R I : order_ptr)
    (to_notify : orders_t) (q : Int) (hq : 0 < q)
    (hnd : ((pre ++ R :: post).map order_t.addr).Nodup)
    (hpre : ∀ x ∈ pre, ¬ (x.stock = I.stock ∧ x.side = reverse_side I.side))
    (hR : R.stock = I.stock ∧ R.side = reverse_side I.side)
    (hRq : R.balance = q) (hIq : I.balance = q) :
    order_manager_t.process_order (pre ++ R :: post) I to_notify =
      ⟨pre ++ post, { I with balance := 0 },
        to_notify ++ [{ R with balance := 0 }, { I with balance := 0 }]⟩ ∧
    R.addr ∉ (order_manager_t.process_order (pre ++ R :: post) I to_notify).orders_.map
      order_t.addr := by
  have _ := hq
  suffices hs : order_manager_t.process_order (pre ++ R :: post) I to_notify =
      ⟨pre ++ post, { I with balance := 0 },
        to_notify ++ [{ R with balance := 0 }, { I with balance := 0 }]⟩ by
    refine ⟨hs, ?_⟩
    rw [hs]
    have h1 : List.Perm ((pre ++ R :: post).map order_t.addr)
        (R.addr :: (pre ++ post).map order_t.addr) := by
      simp
    exact (List.nodup_cons.mp (h1.nodup_iff.mp hnd)).1
  have hk : ssi_key I.stock (reverse_side I.side) R = true := by simpa [ssi_key] using hR
  have hp : ∀ x ∈ pre, ssi_key I.stock (reverse_side I.side) x = false := by
    intro x hx
    simpa [ssi_key] using hpre x hx
  have he := equal_range_append_cons_ne_nil I.stock (reverse_side I.side) pre post R hk
  simp [order_manager_t.process_order, he, match_loop_append_of_not_key _ _ _ _ _ _ _ hp,
    match_loop, hk, hRq, hIq, int_sub_self]

/-- Scenario S2 as an instance of C2. -/
theorem process_order_exact_fill_witness :
    order_manager_t.process_order [order_A] order_B100 [] =
      ⟨[], { order_B100 with balance := 0 },
        [{ order_A with balance := 0 }, { order_B100 with balance := 0 }]⟩ ∧
    order_A.addr ∉ (order_manager_t.process_order [order_A] order_B100 []).orders_.map
      order_t.addr :=
  process_order_exact_fill [] [] order_A order_B100 [] 100 (by decide) (by decide)
    (by decide) (by decide) (by decide) (by decide)

/-- C3: the resting order is filled in part.  When the first order `R` of the
equal range has balance `r` and the incoming order `I` has balance `q` with
`0 < q < r`, `process_order` keeps `R` in its place with balance `r - q` and
its quantity, does not insert `I`, clears the balance of `I` and appends
exactly `I` to the notification list. -/
theorem process_order_rest_remains (pre post : List order_ptr) (R I : order_ptr)
    (to_notify : orders_t) (q r : Int) (hq : 0 < q) (hqr : q < r) (hr : r ≤ INT_MAX)
    (hpre : ∀ x ∈ pre, ¬ (x.stock = I.stock ∧ x.side = reverse_side I.side))
    (hR : R.stock = I.stock ∧ R.side = reverse_side I.side)
    (hRr : R.balance = r) (hIq : I.balance = q) :
    order_manager_t.process_order (pre ++ R :: post) I to_notify =
      ⟨pre ++ { R with balance := r - q } :: post, { I with balance := 0 },
        to_notify ++ [{ I with balance := 0 }]⟩ := by
  have hk : ssi_key I.stock (reverse_side I.side) R = true := by simpa [ssi_key] using hR
  have hp : ∀ x ∈ pre, ssi_key I.stock (reverse_side I.side) x = false := by
    intro x hx
    simpa [ssi_key] using hpre x hx
  have he := equal_range_append_cons_ne_nil I.stock (reverse_side I.side) pre post R hk
  have h1 : int_sub r q = r - q := by
    apply int_sub_eq <;> simp only [INT_MIN, INT_MAX] at * <;> omega
  have h2 : int_sub q r = q - r := by
    apply int_sub_eq <;> simp only [INT_MIN, INT_MAX] at * <;> omega
  have h3 : ¬ (r - q ≤ 0) := by omega
  have h4 : q - r ≤ 0 := by omega
  simp [order_manager_t.process_order, he, match_loop_append_of_not_key _ _ _ _ _ _ _ hp,
    match_loop, hk, hRr, hIq, h1, h2, h3, h4]

/-- Scenario S3 as an instance of C3. -/
theorem process_order_rest_remains_witness :
    order_manager_t.process_order [order_A] order_B40 [] =
      ⟨[{ order_A with balance := 60 }], { order_B40 with balance := 0 },
        [{ order_B40 with balance := 0 }]⟩ :=
  process_order_rest_remains [] [] order_A order_B40 [] 40 100 (by decide) (by decide)
    (by decide) (by decide) (by decide) (by decide) (by decide)

/-- C4: insertion order decides between orders of equal key.  For two stored
orders `R1` and `R2` of the same stock and side, `R1` inserted first, a call of
`process_order` that lowers the balance of `R2` or erases it (so that `R2` as
it was is no longer in the table) has erased `R1` and appended it, with balance
zero, to the notification list. -/
theorem process_order_insertion_order (a b c : List order_ptr) (R1 R2 order : order_ptr)
    (to_notify : orders_t)
    (hkey : R1.stock = R2.stock ∧ R1.side = R2.side)
    (hnd : ((a ++ R1 :: (b ++ R2 :: c) ++ [order]).map order_t.addr).Nodup)
    (hch : R2 ∉ (order_manager_t.process_order (a ++ R1 :: (b ++ R2 :: c)) order
      to_notify).orders_) :
    R1.addr ∉ (order_manager_t.process_order (a ++ R1 :: (b ++ R2 :: c)) order
      to_notify).orders_.map order_t.addr ∧
    ∃ app : orders_t,
      (order_manager_t.process_order (a ++ R1 :: (b ++ R2 :: c)) order to_notify).to_notify =
        to_notify ++ app ∧
      { R1 with balance := 0 } ∈ app := by
  obtain ⟨app, h1, h2, h3⟩ :=
    process_order_in_sequence (a ++ R1 :: (b ++ R2 :: c)) order to_notify
  obtain ⟨app2, g1, _, g3⟩ :=
    process_order_pointers (a ++ R1 :: (b ++ R2 :: c)) order to_notify
  have happ : app2 = app := List.append_cancel_left (g1.symm.trans h1)
  subst happ
  have hR2 : R2 ∈ a ++ R1 :: (b ++ R2 :: c) := by simp
  have hmem : { R1 with balance := 0 } ∈ app2 := by
    by_cases hk : ssi_key order.stock (reverse_side order.side) R1 = true
    · rcases h3 a R1 (b ++ R2 :: c) rfl hk with h4 | h4
      · exact absurd (h4 R2 (by simp)) hch
      · exact h4
    · have hk2 : ssi_key order.stock (reverse_side order.side) R2 = false := by
        simp only [ssi_key, decide_eq_true_eq] at hk
        simp only [ssi_key, decide_eq_false_iff_not]
        rw [← hkey.1, ← hkey.2]
        exact hk
      exact absurd (h2 R2 hR2 hk2) hch
  refine ⟨?_, app2, h1, hmem⟩
  have hnd2 := g3.nodup_iff.mpr hnd
  rw [List.map_append] at hnd2
  have hdis := List.disjoint_of_nodup_append hnd2
  intro hin
  have hin2 : R1.addr ∈ app2.map order_t.addr :=
    List.mem_map.mpr ⟨{ R1 with balance := 0 }, hmem, rfl⟩
  exact hdis hin hin2

/-- Scenario S4 as an instance of C4: `A 30` then `C 40` rest on the buy side,
`SELL 50` comes in; `C` is lowered, so `A` is erased and notified. -/
theorem process_order_insertion_order_witness :
    (order_manager_t.process_order [order_A30, order_C40] order_B50 []).orders_ =
        [{ order_C40 with balance := 20 }] ∧
    (order_manager_t.process_order [order_A30, order_C40] order_B50 []).to_notify =
        [{ order_A30 with balance := 0 }, { order_B50 with balance := 0 }] ∧
    order_A30.addr ∉ (order_manager_t.process_order [order_A30, order_C40] order_B50
      []).orders_.map order_t.addr ∧
    ∃ app : orders_t,
      (order_manager_t.process_order [order_A30, order_C40] order_B50 []).to_notify =
        [] ++ app ∧
      { order_A30 with balance := 0 } ∈ app :=
  ⟨by decide, by decide,
    process_order_insertion_order [] [] [] order_A30 order_C40 order_B50 []
      (by decide) (by decide) (by decide)⟩

/-- C8: every order a call of `process_order` appends to the notification list
has balance zero and is not in the table when the call returns; so an incoming
order that was inserted into the table is not among the orders appended. -/
theorem process_order_notified_filled (orders_ : order_table_t) (order : order_ptr)
    (to_notify : orders_t)
    (hnd : ((orders_ ++ [order]).map order_t.addr).Nodup) :
    ∃ app : orders_t,
      (order_manager_t.process_order orders_ order to_notify).to_notify = to_notify ++ app ∧
      (∀ x ∈ app, x.balance = 0 ∧
        x.addr ∉ (order_manager_t.process_order orders_ order to_notify).orders_.map
          order_t.addr) ∧
      (order.addr ∈ (order_manager_t.process_order orders_ order to_notify).orders_.map
          order_t.addr → order.addr ∉ app.map order_t.addr) := by
  obtain ⟨app, g1, g2, g3⟩ := process_order_pointers orders_ order to_notify
  have hnd2 := g3.nodup_iff.mpr hnd
  rw [List.map_append] at hnd2
  have hdis := List.disjoint_of_nodup_append hnd2
  refine ⟨app, g1, ?_, ?_⟩
  · intro x hx
    exact ⟨g2 x hx, fun hin => hdis hin (List.mem_map_of_mem order_t.addr hx)⟩
  · intro hin hin2
    exact hdis hin hin2

/-- Scenario S4 as an instance of C8, and an incoming order that is inserted
after erasing a resting order (`A 30` rests, `SELL 50` comes in). -/
theorem process_order_notified_filled_witness :
    (order_manager_t.process_order [order_A30] order_B50 []).orders_ =
        [{ order_B50 with balance := 20 }] ∧
    ∃ app : orders_t,
      (order_manager_t.process_order [order_A30] order_B50 []).to_notify = [] ++ app ∧
      (∀ x ∈ app, x.balance = 0 ∧
        x.addr ∉ (order_manager_t.process_order [order_A30] order_B50 []).orders_.map
          order_t.addr) ∧
      (order_B50.addr ∈ (order_manager_t.process_order [order_A30] order_B50 []).orders_.map
          order_t.addr → order_B50.addr ∉ app.map order_t.addr) :=
  ⟨by decide, process_order_notified_filled [order_A30] order_B50 [] (by decide)⟩

/-- The pointers resting in the table or notified after a sequence of calls are
the pointers submitted. -/
theorem run_pointers (os : List order_ptr) :
    List.Perm (((run os).orders_ ++ (run os).notified).map order_t.addr)
      (os.map order_t.addr) := by
  refine run_invariant (fun _ => True)
    (fun os s => List.Perm ((s.orders_ ++ s.notified).map order_t.addr)
      (os.map order_t.addr)) ?_ ?_ os (fun _ _ => trivial)
  · simp
  · intro os s o j _
    obtain ⟨app, g1, _, g3⟩ := process_order_pointers s.orders_ o []
    simp only [submit, g1, List.nil_append]
    simp only [List.map_append] at j g3 ⊢
    have e1 : List.Perm
        ((order_manager_t.process_order s.orders_ o []).orders_.map order_t.addr ++
          (s.notified.map order_t.addr ++ app.map order_t.addr))
        (((order_manager_t.process_order s.orders_ o []).orders_.map order_t.addr ++
          app.map order_t.addr) ++ s.notified.map order_t.addr) := by
      rw [List.append_assoc]
      exact List.Perm.append_left _ List.perm_append_comm
    have e2 := List.Perm.append_right (s.notified.map order_t.addr) g3
    have e3 : List.Perm
        ((s.orders_.map order_t.addr ++ [o].map order_t.addr) ++ s.notified.map order_t.addr)
        ((s.orders_.map order_t.addr ++ s.notified.map order_t.addr) ++
          [o].map order_t.addr) := by
      rw [List.append_assoc, List.append_assoc]
      exact List.Perm.append_left _ List.perm_append_comm
    have e4 := List.Perm.append_right ([o].map order_t.addr) j
    exact e1.trans (e2.trans (e3.trans e4))

/-- The filled quantities of the two sides of a stock, over resting and
notified orders, agree after every sequence of fresh orders whose quantity is
not negative. -/
theorem run_filled (os : List order_ptr)
    (h : ∀ o ∈ os, 0 ≤ o.quantity ∧ o.quantity ≤ INT_MAX ∧ o.balance = o.quantity)
    (t : String) :
    filled t side_t.buy ((run os).orders_ ++ (run os).notified) =
      filled t side_t.sell ((run os).orders_ ++ (run os).notified) := by
  have key := run_invariant
    (fun o => 0 ≤ o.quantity ∧ o.quantity ≤ INT_MAX ∧ o.balance = o.quantity)
    (fun _ s => (∀ x ∈ s.orders_, within 0 x) ∧
      filled t side_t.buy (s.orders_ ++ s.notified) =
        filled t side_t.sell (s.orders_ ++ s.notified)) ?_ ?_ os h
  · exact key.2
  · simp [filled_nil]
  · rintro _ s o ⟨j1, j2⟩ ⟨p1, p2, p3⟩
    have ho : within 0 o := by
      unfold within
      omega
    have hb : ∀ x ∈ s.orders_, 0 ≤ x.balance ∧ x.balance ≤ INT_MAX := by
      intro x hx
      have := j1 x hx
      unfold within at this
      omega
    obtain ⟨g1, _⟩ := process_order_within 0 (le_refl 0) (by decide) s.orders_ o [] j1 ho
    obtain ⟨app, g2, g3⟩ := process_order_filled s.orders_ o [] hb (by omega)
    refine ⟨g1, ?_⟩
    have g4 := g3 t
    simp only [submit, g2, List.nil_append]
    simp only [filled_append, filled_cons, filled_nil, p3, sub_self, ite_self] at j2 g4 ⊢
    omega

/-! ## Claims on sequences of calls -/

/-- C5: after every call of a sequence of calls from the empty table, on fresh
orders of strictly positive quantity, every order resting in the table has
`0 < balance` and `balance ≤ quantity`. -/
theorem run_resting_balance (os : List order_ptr)
    (h : ∀ o ∈ os, 0 < o.quantity ∧ o.quantity ≤ INT_MAX ∧ o.balance = o.quantity)
    (k : Nat) :
    ∀ x ∈ (run (os.take k)).orders_, 0 < x.balance ∧ x.balance ≤ x.quantity := by
  have hw : ∀ o ∈ os.take k, within 1 o := by
    intro o ho
    obtain ⟨h1, h2, h3⟩ := h o (List.mem_of_mem_take ho)
    unfold within
    omega
  intro x hx
  have hx2 := (run_within 1 (by decide) (le_refl 1) (os.take k) hw).1 x hx
  unfold within at hx2
  omega

/-- Scenario S4 as an instance of C5. -/
theorem run_resting_balance_witness :
    (run ([order_A30, order_C40, order_B50].take 3)).orders_ =
        [{ order_C40 with balance := 20 }] ∧
    ∀ x ∈ (run ([order_A30, order_C40, order_B50].take 3)).orders_,
      0 < x.balance ∧ x.balance ≤ x.quantity :=
  ⟨by decide, run_resting_balance [order_A30, order_C40, order_B50] (by decide) 3⟩

/-- C6 as stated fails: after `BUY 100` and `SELL 40` of scenario S3 the only
notification is the sell order, so the notified buy quantities of `IBM` sum to
0 and the notified sell quantities to 40. -/
theorem notified_quantity_differs :
    (run [order_A, order_B40]).notified = [{ order_B40 with balance := 0 }] ∧
    notified_quantity "IBM" side_t.buy (run [order_A, order_B40]).notified = 0 ∧
    notified_quantity "IBM" side_t.sell (run [order_A, order_B40]).notified = 40 ∧
    ¬ (notified_quantity "IBM" side_t.buy (run [order_A, order_B40]).notified =
      notified_quantity "IBM" side_t.sell (run [order_A, order_B40]).notified) := by
  decide

/-- C6, amended: after every call of a sequence of calls from the empty table,
on fresh orders whose quantity is not negative, for each stock the quantities
of the notified buy orders plus the filled parts `quantity - balance` of the
resting buy orders equal the same sum over the sell orders. -/
theorem run_conservation (os : List order_ptr)
    (h : ∀ o ∈ os, 0 ≤ o.quantity ∧ o.quantity ≤ INT_MAX ∧ o.balance = o.quantity)
    (k : Nat) (t : String) :
    notified_quantity t side_t.buy (run (os.take k)).notified +
        filled t side_t.buy (run (os.take k)).orders_ =
      notified_quantity t side_t.sell (run (os.take k)).notified +
        filled t side_t.sell (run (os.take k)).orders_ := by
  have h2 : ∀ o ∈ os.take k,
      0 ≤ o.quantity ∧ o.quantity ≤ INT_MAX ∧ o.balance = o.quantity :=
    fun o ho => h o (List.mem_of_mem_take ho)
  have hw : ∀ o ∈ os.take k, within 0 o := by
    intro o ho
    obtain ⟨h1, h2, h3⟩ := h2 o ho
    unfold within
    omega
  have hz : ∀ x ∈ (run (os.take k)).notified, x.balance = 0 :=
    fun x hx => ((run_within 0 (le_refl 0) (by decide) (os.take k) hw).2 x hx).1
  have hf := run_filled (os.take k) h2 t
  rw [filled_append, filled_append, filled_eq_notified_quantity t side_t.buy _ hz,
    filled_eq_notified_quantity t side_t.sell _ hz] at hf
  omega

/-- Scenario S3 as an instance of the amended C6: 40 notified on the sell side,
40 filled of the resting buy order. -/
theorem run_conservation_witness :
    filled "IBM" side_t.buy (run ([order_A, order_B40].take 2)).orders_ = 40 ∧
    notified_quantity "IBM" side_t.buy (run ([order_A, order_B40].take 2)).notified +
        filled "IBM" side_t.buy (run ([order_A, order_B40].take 2)).orders_ =
      notified_quantity "IBM" side_t.sell (run ([order_A, order_B40].take 2)).notified +
        filled "IBM" side_t.sell (run ([order_A, order_B40].take 2)).orders_ :=
  ⟨by decide, run_conservation [order_A, order_B40] (by decide) 2 "IBM"⟩

/-- C7: after every call of a sequence of calls from the empty table, on fresh
and distinct orders of strictly positive quantity, every submitted order is
once either resting or notified, resting orders have a positive balance,
notified orders have balance zero, and every notified order occurs exactly
once in the concatenation of the notification lists, which holds no order
twice. -/
theorem run_notified_once (os : List order_ptr)
    (h : ∀ o ∈ os, 0 < o.quantity ∧ o.quantity ≤ INT_MAX ∧ o.balance = o.quantity)
    (hnd : (os.map order_t.addr).Nodup) (k : Nat) :
    List.Perm
      (((run (os.take k)).orders_ ++ (run (os.take k)).notified).map order_t.addr)
      ((os.take k).map order_t.addr) ∧
    (∀ x ∈ (run (os.take k)).orders_, 0 < x.balance) ∧
    (∀ x ∈ (run (os.take k)).notified, x.balance = 0) ∧
    (∀ x ∈ (run (os.take k)).notified,
      List.count x.addr ((run (os.take k)).notified.map order_t.addr) = 1) ∧
    (∀ a : Nat, List.count a ((run (os.take k)).notified.map order_t.addr) ≤ 1) := by
  have hw : ∀ o ∈ os.take k, within 1 o := by
    intro o ho
    obtain ⟨h1, h2, h3⟩ := h o (List.mem_of_mem_take ho)
    unfold within
    omega
  have hb := run_within 1 (by decide) (le_refl 1) (os.take k) hw
  have hp := run_pointers (os.take k)
  have hnd2 : ((os.take k).map order_t.addr).Nodup :=
    List.Nodup.sublist ((List.take_sublist k os).map order_t.addr) hnd
  have hnd3 := hp.nodup_iff.mpr hnd2
  rw [List.map_append] at hnd3
  have hnd4 : ((run (os.take k)).notified.map order_t.addr).Nodup :=
    List.Nodup.of_append_right hnd3
  refine ⟨hp, ?_, fun x hx => (hb.2 x hx).1, ?_, ?_⟩
  · intro x hx
    have := hb.1 x hx
    unfold within at this
    omega
  · intro x hx
    exact List.count_eq_one_of_mem hnd4 (List.mem_map_of_mem order_t.addr hx)
  · intro a
    exact List.nodup_iff_count_le_one.mp hnd4 a

/-- Scenario S4 as an instance of C7. -/
theorem run_notified_once_witness :
    (run ([order_A30, order_C40, order_B50].take 3)).notified =
        [{ order_A30 with balance := 0 }, { order_B50 with balance := 0 }] ∧
    (List.Perm
      (((run ([order_A30, order_C40, order_B50].take 3)).orders_ ++
        (run ([order_A30, order_C40, order_B50].take 3)).notified).map order_t.addr)
      (([order_A30, order_C40, order_B50].take 3).map order_t.addr) ∧
    (∀ x ∈ (run ([order_A30, order_C40, order_B50].take 3)).orders_, 0 < x.balance) ∧
    (∀ x ∈ (run ([order_A30, order_C40, order_B50].take 3)).notified, x.balance = 0) ∧
    (∀ x ∈ (run ([order_A30, order_C40, order_B50].take 3)).notified,
      List.count x.addr
        ((run ([order_A30, order_C40, order_B50].take 3)).notified.map order_t.addr) = 1) ∧
    (∀ a : Nat, List.count a
      ((run ([order_A30, order_C40, order_B50].take 3)).notified.map order_t.addr) ≤ 1)) :=
  ⟨by decide,
    run_notified_once [order_A30, order_C40, order_B50] (by decide) (by decide) 3⟩

/-! ## Orders of quantity zero and frames of negative quantity -/

/-- C9 as stated fails on the empty table: the order `(IBM, X, 0, BUY)` of
scenario S6 is inserted into the table and is not notified. -/
theorem zero_quantity_inserted :
    order_X0.quantity = 0 ∧
    order_manager_t.process_order [] order_X0 [] = ⟨[order_X0], order_X0, []⟩ ∧
    ¬ ((order_manager_t.process_order [] order_X0 []).orders_ = [] ∧
      order_X0 ∈ (order_manager_t.process_order [] order_X0 []).to_notify) := by
  decide

/-- C9, amended: when the equal range of the reverse side is not empty and its
first order `R` has a positive balance, `process_order` on a fresh incoming
order of quantity zero leaves the table as it is and appends the incoming order
to the notification list. -/
theorem process_order_zero_quantity (pre post : List order_ptr) (R order : order_ptr)
    (to_notify : orders_t)
    (hq : order.quantity = 0) (hb : order.balance = order.quantity)
    (hpre : ∀ x ∈ pre, ¬ (x.stock = order.stock ∧ x.side = reverse_side order.side))
    (hR : R.stock = order.stock ∧ R.side = reverse_side order.side)
    (hpos : 0 < R.balance) (hmax : R.balance ≤ INT_MAX) :
    order_manager_t.process_order (pre ++ R :: post) order to_notify =
      ⟨pre ++ R :: post, order, to_notify ++ [order]⟩ := by
  have hk : ssi_key order.stock (reverse_side order.side) R = true := by
    simpa [ssi_key] using hR
  have hp : ∀ x ∈ pre, ssi_key order.stock (reverse_side order.side) x = false := by
    intro x hx
    simpa [ssi_key] using hpre x hx
  have he := equal_range_append_cons_ne_nil order.stock (reverse_side order.side) pre post R hk
  have hb0 : order.balance = 0 := hb.trans hq
  have h1 : int_sub R.balance 0 = R.balance := by
    have e := @int_sub_eq R.balance 0 (by simp only [INT_MIN]; omega)
      (by simp only [INT_MAX] at *; omega)
    simpa using e
  have h2 : int_sub 0 R.balance = -R.balance := by
    have e := @int_sub_eq 0 R.balance (by simp only [INT_MIN, INT_MAX] at *; omega)
      (by simp only [INT_MAX] at *; omega)
    simpa using e
  have h3 : ¬ (R.balance ≤ 0) := by omega
  have h4 : 0 ≤ R.balance := by omega
  have h5 : ({ order with balance := 0 } : order_ptr) = order := by
    rw [← hb0]
  simp [order_manager_t.process_order, he, match_loop_append_of_not_key _ _ _ _ _ _ _ hp,
    match_loop, hk, hb0, h1, h2, h3, h4, h5]

/-- An order of quantity zero against the resting `SELL 40` of scenario S3. -/
theorem process_order_zero_quantity_witness :
    order_manager_t.process_order [order_B40] order_X0 [] =
      ⟨[order_B40], order_X0, [order_X0]⟩ :=
  process_order_zero_quantity [] [] order_B40 order_X0 [] (by decide) (by decide)
    (by decide) (by decide) (by decide) (by decide)

/-- C10 as stated fails: the reader turns a frame of quantity `-5` into an
order, and after `process_order` that order rests in the table with balance
`-5`. -/
theorem reader_negative_quantity_rests :
    (run (reader_orders [(1, 1, frame_negative)])).orders_ =
      [order_t.make 1 "IBM" "N" 6 (-5) side_t.buy (some 1)] ∧
    ¬ (∀ x ∈ (run (reader_orders [(1, 1, frame_negative)])).orders_ ++
        (run (reader_orders [(1, 1, frame_negative)])).notified,
      0 ≤ x.balance ∧ x.balance ≤ x.quantity) := by
  decide

/-- C10, amended: for every sequence of frames whose quantity field is not
negative, turned into orders by the reader, after every call of `process_order`
every order, resting or notified, has `0 ≤ balance` and `balance ≤ quantity`. -/
theorem run_reader_within (frames : List (Nat × Nat × transmission.order_t))
    (h : ∀ f ∈ frames, 0 ≤ f.2.2.quantity_ ∧ f.2.2.quantity_ ≤ INT_MAX) (k : Nat) :
    ∀ x ∈ (run ((reader_orders frames).take k)).orders_ ++
        (run ((reader_orders frames).take k)).notified,
      0 ≤ x.balance ∧ x.balance ≤ x.quantity := by
  have hw : ∀ o ∈ (reader_orders frames).take k, within 0 o := by
    intro o ho
    have ho2 := List.mem_of_mem_take ho
    simp only [reader_orders, List.mem_map] at ho2
    obtain ⟨f, hf, rfl⟩ := ho2
    have := h f hf
    simp only [within, reader_order, order_t.make]
    omega
  have hb := run_within 0 (le_refl 0) (by decide) _ hw
  intro x hx
  rcases List.mem_append.mp hx with hx | hx
  · have := hb.1 x hx
    unfold within at this
    omega
  · have := hb.2 x hx
    omega

/-- Two frames of positive quantity, `SELL 10` then `BUY 4`, as an instance of
the amended C10. -/
theorem run_reader_within_witness :
    (run ((reader_orders [(1, 1, frame_P10), (2, 2, frame_Q4)]).take 2)).notified =
      [{ order_t.make 2 "IBM" "Q" 8 4 side_t.buy (some 2) with balance := 0 }] ∧
    ∀ x ∈ (run ((reader_orders [(1, 1, frame_P10), (2, 2, frame_Q4)]).take 2)).orders_ ++
        (run ((reader_orders [(1, 1, frame_P10), (2, 2, frame_Q4)]).take 2)).notified,
      0 ≤ x.balance ∧ x.balance ≤ x.quantity :=
  ⟨by decide,
    run_reader_within [(1, 1, frame_P10), (2, 2, frame_Q4)] (by decide) 2⟩

/-! ## The order frame -/

theorem c_string_strcpy (dst : List Char) (src : String)
    (h : ∀ c ∈ src.toList, c ≠ Char.ofNat 0) :
    transmission.c_string (transmission.strcpy dst src) = src := by
  have h1 : src.toList.takeWhile (fun c => c != Char.ofNat 0) = src.toList := by
    rw [List.takeWhile_eq_self_iff]
    intro c hc
    simpa using h c hc
  have h2 : ∀ c ∈ src.toList, (fun c => c != Char.ofNat 0) c = true := by
    intro c hc
    simpa using h c hc
  unfold transmission.c_string transmission.strcpy
  rw [h1, List.append_assoc, List.takeWhile_append_of_pos h2]
  simp

theorem strcpy_length (dst : List Char) (src : String)
    (h : src.length + 1 ≤ dst.length) :
    (transmission.strcpy dst src).length = dst.length := by
  have h1 : (src.toList.takeWhile (fun c => c != Char.ofNat 0)).length ≤ src.length := by
    have := (List.takeWhile_sublist (fun c => c != Char.ofNat 0) (l := src.toList)).length_le
    simpa using this
  unfold transmission.strcpy
  simp only [List.length_append, List.length_drop, List.length_singleton]
  omega

theorem side_of_to_int (s : side_t) :
    (if s.to_int = 0 then side_t.buy else side_t.sell) = s := by
  cases s <;> simp [side_t.to_int]

theorem int_bytes_length (x : Int) : (transmission.int_bytes x).length = 4 := by
  simp [transmission.int_bytes]

/-- C11 as stated fails: the frame of the notified order `(IBM, A, 100, BUY)`
with balance 0 carries the balance 0, and the order the reader builds from
that frame has balance 100. -/
theorem frame_round_trip_loses_balance :
    (transmission.order_t.of_order_ptr (padded "" 8) (padded "" 64) order_A_filled).balance_
      = 0 ∧
    (reader_order 7 0
      (transmission.order_t.of_order_ptr (padded "" 8) (padded "" 64) order_A_filled)).balance
      = 100 ∧
    ¬ ((reader_order 7 0
      (transmission.order_t.of_order_ptr (padded "" 8) (padded "" 64) order_A_filled)).balance
      = order_A_filled.balance) := by
  decide

/-- C11, amended: for every order whose stock has at most 7 characters and
whose trader name has at most 63 characters, none of them NUL, the frame built
from the order fills the two character arrays exactly, and the order the reader
builds from that frame equals the order in stock, trader, trader id, quantity
and side; its balance is the quantity of the order. -/
theorem frame_round_trip (order : order_ptr) (stock0 trader0 : List Char) (addr cip : Nat)
    (h8 : stock0.length = 8) (h64 : trader0.length = 64)
    (hs : order.stock.length ≤ 7) (ht : order.trader.length ≤ 63)
    (hs0 : ∀ c ∈ order.stock.toList, c ≠ Char.ofNat 0)
    (ht0 : ∀ c ∈ order.trader.toList, c ≠ Char.ofNat 0) :
    (transmission.order_t.of_order_ptr stock0 trader0 order).stock_.length = 8 ∧
    (transmission.order_t.of_order_ptr stock0 trader0 order).trader_.length = 64 ∧
    (reader_order addr cip
      (transmission.order_t.of_order_ptr stock0 trader0 order)).stock = order.stock ∧
    (reader_order addr cip
      (transmission.order_t.of_order_ptr stock0 trader0 order)).trader = order.trader ∧
    (reader_order addr cip
      (transmission.order_t.of_order_ptr stock0 trader0 order)).trader_id = order.trader_id ∧
    (reader_order addr cip
      (transmission.order_t.of_order_ptr stock0 trader0 order)).quantity = order.quantity ∧
    (reader_order addr cip
      (transmission.order_t.of_order_ptr stock0 trader0 order)).side = order.side ∧
    (reader_order addr cip
      (transmission.order_t.of_order_ptr stock0 trader0 order)).balance = order.quantity := by
  refine ⟨?_, ?_, ?_, ?_, rfl, rfl, ?_, rfl⟩
  · simp only [transmission.order_t.of_order_ptr]
    rw [strcpy_length stock0 order.stock (by omega), h8]
  · simp only [transmission.order_t.of_order_ptr]
    rw [strcpy_length trader0 order.trader (by omega), h64]
  · simp only [reader_order, order_t.make, transmission.order_t.of_order_ptr]
    exact c_string_strcpy stock0 order.stock hs0
  · simp only [reader_order, order_t.make, transmission.order_t.of_order_ptr]
    exact c_string_strcpy trader0 order.trader ht0
  · simp only [reader_order, order_t.make, transmission.order_t.of_order_ptr]
    exact side_of_to_int order.side

/-- The notified order of scenario S2 as an instance of the amended C11. -/
theorem frame_round_trip_witness :
    (transmission.order_t.of_order_ptr (padded "" 8) (padded "" 64)
      order_A_filled).stock_.length = 8 ∧
    (transmission.order_t.of_order_ptr (padded "" 8) (padded "" 64)
      order_A_filled).trader_.length = 64 ∧
    (reader_order 7 0 (transmission.order_t.of_order_ptr (padded "" 8) (padded "" 64)
      order_A_filled)).stock = order_A_filled.stock ∧
    (reader_order 7 0 (transmission.order_t.of_order_ptr (padded "" 8) (padded "" 64)
      order_A_filled)).trader = order_A_filled.trader ∧
    (reader_order 7 0 (transmission.order_t.of_order_ptr (padded "" 8) (padded "" 64)
      order_A_filled)).trader_id = order_A_filled.trader_id ∧
    (reader_order 7 0 (transmission.order_t.of_order_ptr (padded "" 8) (padded "" 64)
      order_A_filled)).quantity = order_A_filled.quantity ∧
    (reader_order 7 0 (transmission.order_t.of_order_ptr (padded "" 8) (padded "" 64)
      order_A_filled)).side = order_A_filled.side ∧
    (reader_order 7 0 (transmission.order_t.of_order_ptr (padded "" 8) (padded "" 64)
      order_A_filled)).balance = order_A_filled.quantity :=
  frame_round_trip order_A_filled (padded "" 8) (padded "" 64) 7 0 (by decide) (by decide)
    (by decide) (by decide) (by decide) (by decide)

/-- C12 as stated fails: the frame built from the notified order of scenario
S2 takes 88 bytes, the value of `sizeof(transmission::order_t)`, not 84. -/
theorem frame_size_not_84 :
    (transmission.order_t.of_order_ptr (padded "" 8) (padded "" 64)
      order_A_filled).bytes.length = 88 ∧
    transmission.sizeof_order_t = 88 ∧
    ¬ ((transmission.order_t.of_order_ptr (padded "" 8) (padded "" 64)
      order_A_filled).bytes.length = 84) := by
  decide

/-- C12, amended: the order frame, `stock[8]`, `trader[64]` and four `int`
members without padding, that the server reads per order and writes per
notification is exactly 88 bytes long, for every order whose strings fit the
arrays. -/
theorem frame_size (order : order_ptr) (stock0 trader0 : List Char)
    (h8 : stock0.length = 8) (h64 : trader0.length = 64)
    (hs : order.stock.length ≤ 7) (ht : order.trader.length ≤ 63) :
    transmission.sizeof_order_t = 88 ∧
    (transmission.order_t.of_order_ptr stock0 trader0 order).bytes.length =
      transmission.sizeof_order_t := by
  refine ⟨rfl, ?_⟩
  simp only [transmission.order_t.bytes, transmission.order_t.of_order_ptr,
    List.length_append, List.length_map, int_bytes_length,
    strcpy_length stock0 order.stock (by omega),
    strcpy_length trader0 order.trader (by omega), h8, h64]
  rfl

/-- The notified order of scenario S2 as an instance of the amended C12. -/
theorem frame_size_witness :
    transmission.sizeof_order_t = 88 ∧
    (transmission.order_t.of_order_ptr (padded "" 8) (padded "" 64)
      order_A_filled).bytes.length = transmission.sizeof_order_t :=
  frame_size order_A_filled (padded "" 8) (padded "" 64) (by decide) (by decide)
    (by decide) (by decide)

/-! ## The reader -/

theorem reader_loop_complete (cip : conn_info_ptr) (r : read_t transmission.order_t)
    (reads : List (read_t transmission.order_t)) (s : socket_server_t)
    (hn : r.n = (transmission.sizeof_order_t : Int)) :
    reader_loop cip (r :: reads) s =
      reader_loop cip reads
        { s with work_queue_ := s.work_queue_.push (reader_order s.next_addr cip.addr r.buf),
                 next_addr := s.next_addr + 1 } := by
  have h0 : r.n ≠ 0 := by
    rw [hn]
    decide
  rw [reader_loop, if_neg h0, if_neg (not_not.mpr hn)]

/-- C13 as stated fails: a complete frame whose side field is 7 makes the
reader push a sell order onto the work queue. -/
theorem reader_unknown_side_queued :
    (reader_loop conn_c [⟨88, frame_side7⟩] server_c).work_queue_.queue_ =
      [order_t.make 1 "IBM" "S" 9 10 side_t.sell (some 0)] ∧
    ¬ ((reader_loop conn_c [⟨88, frame_side7⟩] server_c).work_queue_ =
      server_c.work_queue_) := by
  decide

/-- C13, amended: for every complete frame whose side field is neither 0 nor
1, the reader builds a sell order from the frame, pushes it onto the work queue
and goes on reading the connection. -/
theorem reader_unknown_side (cip : conn_info_ptr) (r : read_t transmission.order_t)
    (reads : List (read_t transmission.order_t)) (s : socket_server_t)
    (hn : r.n = (transmission.sizeof_order_t : Int))
    (hside : r.buf.side_ ≠ 0 ∧ r.buf.side_ ≠ 1) :
    (reader_order s.next_addr cip.addr r.buf).side = side_t.sell ∧
    reader_loop cip (r :: reads) s =
      reader_loop cip reads
        { s with work_queue_ := s.work_queue_.push (reader_order s.next_addr cip.addr r.buf),
                 next_addr := s.next_addr + 1 } := by
  refine ⟨?_, reader_loop_complete cip r reads s hn⟩
  simp [reader_order, order_t.make, hside.1]

/-- The frame of side 7 as an instance of the amended C13. -/
theorem reader_unknown_side_witness :
    (reader_order server_c.next_addr conn_c.addr frame_side7).side = side_t.sell ∧
    reader_loop conn_c [⟨88, frame_side7⟩] server_c =
      reader_loop conn_c []
        { server_c with
          work_queue_ :=
            server_c.work_queue_.push (reader_order server_c.next_addr conn_c.addr frame_side7),
          next_addr := server_c.next_addr + 1 } :=
  reader_unknown_side conn_c ⟨88, frame_side7⟩ [] server_c (by decide) (by decide)

/-- C14 as stated fails: a complete frame whose quantity field is -5 makes the
reader push an order of quantity and balance -5 onto the work queue. -/
theorem reader_negative_quantity_queued :
    (reader_loop conn_c [⟨88, frame_negative⟩] server_c).work_queue_.queue_ =
      [order_t.make 1 "IBM" "N" 6 (-5) side_t.buy (some 0)] ∧
    ¬ ((reader_loop conn_c [⟨88, frame_negative⟩] server_c).work_queue_ =
      server_c.work_queue_) := by
  decide

/-- C14, amended: for every complete frame whose quantity field is negative,
the reader builds an order whose quantity and balance are that negative value,
pushes it onto the work queue and goes on reading the connection. -/
theorem reader_negative_quantity (cip : conn_info_ptr) (r : read_t transmission.order_t)
    (reads : List (read_t transmission.order_t)) (s : socket_server_t)
    (hn : r.n = (transmission.sizeof_order_t : Int))
    (hq : r.buf.quantity_ < 0) :
    (reader_order s.next_addr cip.addr r.buf).quantity < 0 ∧
    (reader_order s.next_addr cip.addr r.buf).balance < 0 ∧
    reader_loop cip (r :: reads) s =
      reader_loop cip reads
        { s with work_queue_ := s.work_queue_.push (reader_order s.next_addr cip.addr r.buf),
                 next_addr := s.next_addr + 1 } := by
  refine ⟨?_, ?_, reader_loop_complete cip r reads s hn⟩
  · simpa [reader_order, order_t.make] using hq
  · simpa [reader_order, order_t.make] using hq

/-- The frame of quantity -5 as an instance of the amended C14. -/
theorem reader_negative_quantity_witness :
    (reader_order server_c.next_addr conn_c.addr frame_negative).quantity < 0 ∧
    (reader_order server_c.next_addr conn_c.addr frame_negative).balance < 0 ∧
    reader_loop conn_c [⟨88, frame_negative⟩] server_c =
      reader_loop conn_c []
        { server_c with
          work_queue_ :=
            server_c.work_queue_.push
              (reader_order server_c.next_addr conn_c.addr frame_negative),
          next_addr := server_c.next_addr + 1 } :=
  reader_negative_quantity conn_c ⟨88, frame_negative⟩ [] server_c (by decide) (by decide)

/-- C15 on the code: a read of zero bytes on the socket 5 of the registered
record of trader 100 leaves that record in the table, because the erase goes by
trader id; and it erases the record of trader 5 on socket 9 when there is
one. -/
theorem reader_eof_erases_by_trader_id :
    (reader_loop conn_c [⟨0, frame_P10⟩] server_c).conn_info_table_ = [conn_c] ∧
    (reader_loop conn_c [⟨0, frame_P10⟩] server_c).closed = [5] ∧
    (reader_loop conn_c [⟨0, frame_P10⟩] server_dc).conn_info_table_ = [conn_c] ∧
    conn_d ∉ (reader_loop conn_c [⟨0, frame_P10⟩] server_dc).conn_info_table_ := by
  decide

/-- C17 as stated fails: with trader 100 registered on socket 5, a second
connection on socket 6 whose handshake carries the trader id 100 is not
registered, and the reader still pushes the order of its first frame onto the
work queue. -/
theorem reader_duplicate_trader_id_queued :
    (reader_thread 6 ⟨8, padded "100" 8⟩ [⟨88, frame_P10⟩] server_c).conn_info_table_ =
      [conn_c] ∧
    (reader_thread 6 ⟨8, padded "100" 8⟩ [⟨88, frame_P10⟩] server_c).work_queue_.queue_ =
      [order_t.make 2 "IBM" "P" 7 10 side_t.sell (some 1)] ∧
    ¬ ((reader_thread 6 ⟨8, padded "100" 8⟩ [⟨88, frame_P10⟩] server_c).work_queue_ =
      server_c.work_queue_) := by
  decide

/-- C18 on the code: after a handshake of trader 100 on socket 5, one frame
and a read of zero bytes, the socket is closed and the reader is done with the
connection and holds the record no more, yet the table still holds the record
and the weak pointer of the queued order locks to it. -/
theorem reader_eof_leaves_handle_live :
    (reader_thread 5 ⟨8, padded "100" 8⟩ [⟨88, frame_P10⟩, ⟨0, frame_P10⟩]
      socket_server_t.start).closed = [5] ∧
    (reader_thread 5 ⟨8, padded "100" 8⟩ [⟨88, frame_P10⟩, ⟨0, frame_P10⟩]
      socket_server_t.start).conn_info_table_ = [⟨0, 100, 5⟩] ∧
    (reader_thread 5 ⟨8, padded "100" 8⟩ [⟨88, frame_P10⟩, ⟨0, frame_P10⟩]
      socket_server_t.start).work_queue_.queue_ =
        [order_t.make 1 "IBM" "P" 7 10 side_t.sell (some 0)] ∧
    reader_thread_cip 5 ⟨8, padded "100" 8⟩ [⟨88, frame_P10⟩, ⟨0, frame_P10⟩]
      socket_server_t.start = none ∧
    order_t.lock_conn_info
      (reader_thread 5 ⟨8, padded "100" 8⟩ [⟨88, frame_P10⟩, ⟨0, frame_P10⟩]
        socket_server_t.start)
      (reader_thread_cip 5 ⟨8, padded "100" 8⟩ [⟨88, frame_P10⟩, ⟨0, frame_P10⟩]
        socket_server_t.start).toList
      (order_t.make 1 "IBM" "P" 7 10 side_t.sell (some 0)) = some ⟨0, 100, 5⟩ := by
  decide

/-! ## The connection table -/

theorem conn_info_table_insert_of_present (t : conn_info_table_t) (cip : conn_info_ptr)
    (h : ∃ c ∈ t, c.trader_id_ = cip.trader_id_ ∨ c.socket_ = cip.socket_) :
    conn_info_table_insert t cip = t := by
  have ha : t.any (fun c => decide (c.trader_id_ = cip.trader_id_ ∨ c.socket_ = cip.socket_))
      = true := by
    rw [List.any_eq_true]
    obtain ⟨c, hc, hk⟩ := h
    exact ⟨c, hc, by simpa using hk⟩
  unfold conn_info_table_insert
  rw [if_pos ha]

theorem conn_info_table_insert_unique (t : conn_info_table_t) (cip : conn_info_ptr)
    (h1 : (t.map conn_info_t.trader_id_).Nodup) (h2 : (t.map conn_info_t.socket_).Nodup) :
    ((conn_info_table_insert t cip).map conn_info_t.trader_id_).Nodup ∧
    ((conn_info_table_insert t cip).map conn_info_t.socket_).Nodup := by
  by_cases ha : t.any (fun c => decide (c.trader_id_ = cip.trader_id_ ∨ c.socket_ = cip.socket_))
      = true
  · unfold conn_info_table_insert
    rw [if_pos ha]
    exact ⟨h1, h2⟩
  · have hb : ∀ c ∈ t, ¬ (c.trader_id_ = cip.trader_id_ ∨ c.socket_ = cip.socket_) := by
      intro c hc hk
      apply ha
      rw [List.any_eq_true]
      exact ⟨c, hc, by simpa using hk⟩
    unfold conn_info_table_insert
    rw [if_neg ha]
    simp only [List.map_append, List.map_cons, List.map_nil]
    constructor
    · refine List.Nodup.append h1 (List.nodup_singleton _) ?_
      intro k hk1 hk2
      rw [List.mem_singleton] at hk2
      obtain ⟨c, hc, hck⟩ := List.mem_map.mp hk1
      exact hb c hc (Or.inl (hck.trans hk2))
    · refine List.Nodup.append h2 (List.nodup_singleton _) ?_
      intro k hk1 hk2
      rw [List.mem_singleton] at hk2
      obtain ⟨c, hc, hck⟩ := List.mem_map.mp hk1
      exact hb c hc (Or.inr (hck.trans hk2))

theorem conn_info_table_erase_unique (t : conn_info_table_t) (key : Int)
    (h1 : (t.map conn_info_t.trader_id_).Nodup) (h2 : (t.map conn_info_t.socket_).Nodup) :
    ((conn_info_table_erase t key).map conn_info_t.trader_id_).Nodup ∧
    ((conn_info_table_erase t key).map conn_info_t.socket_).Nodup := by
  unfold conn_info_table_erase
  exact ⟨List.Nodup.sublist ((List.filter_sublist t).map _) h1,
    List.Nodup.sublist ((List.filter_sublist t).map _) h2⟩

theorem conn_info_table_run_unique (ops : List conn_info_table_op) :
    ∀ t : conn_info_table_t, (t.map conn_info_t.trader_id_).Nodup →
      (t.map conn_info_t.socket_).Nodup →
      ((conn_info_table_run ops t).map conn_info_t.trader_id_).Nodup ∧
      ((conn_info_table_run ops t).map conn_info_t.socket_).Nodup := by
  induction ops with
  | nil => intro t h1 h2; exact ⟨h1, h2⟩
  | cons op ops ih =>
    intro t h1 h2
    cases op with
    | insert cip =>
      have h := conn_info_table_insert_unique t cip h1 h2
      exact ih _ h.1 h.2
    | erase key =>
      have h := conn_info_table_erase_unique t key h1 h2
      exact ih _ h.1 h.2

/-- C16: after every sequence of inserts and erases from the empty connection
table no two records share a trader id and no two share a socket descriptor;
and on every table the insert of a record whose trader id or socket descriptor
is that of a record present leaves the table unchanged. -/
theorem conn_info_table_unique (ops : List conn_info_table_op) :
    ((conn_info_table_run ops []).map conn_info_t.trader_id_).Nodup ∧
    ((conn_info_table_run ops []).map conn_info_t.socket_).Nodup ∧
    ∀ (t : conn_info_table_t) (cip : conn_info_ptr),
      (∃ c ∈ t, c.trader_id_ = cip.trader_id_ ∨ c.socket_ = cip.socket_) →
      conn_info_table_insert t cip = t := by
  have h := conn_info_table_run_unique ops [] (by simp) (by simp)
  exact ⟨h.1, h.2, conn_info_table_insert_of_present⟩

/-- Two inserts, an insert of a second record of trader 100, and an erase, as
an instance of C16. -/
theorem conn_info_table_unique_witness :
    conn_info_table_run
      [conn_info_table_op.insert conn_c, conn_info_table_op.insert conn_d,
        conn_info_table_op.insert ⟨2, 100, 6⟩, conn_info_table_op.erase 5] [] = [conn_c] ∧
    ((conn_info_table_run
      [conn_info_table_op.insert conn_c, conn_info_table_op.insert conn_d,
        conn_info_table_op.insert ⟨2, 100, 6⟩, conn_info_table_op.erase 5] []).map
      conn_info_t.trader_id_).Nodup ∧
    conn_info_table_insert [conn_c, conn_d] ⟨2, 100, 6⟩ = [conn_c, conn_d] :=
  ⟨by decide,
    (conn_info_table_unique
      [conn_info_table_op.insert conn_c, conn_info_table_op.insert conn_d,
        conn_info_table_op.insert ⟨2, 100, 6⟩, conn_info_table_op.erase 5]).1,
    (conn_info_table_unique []).2.2 [conn_c, conn_d] ⟨2, 100, 6⟩
      ⟨conn_c, by decide, by decide⟩⟩

/-- C17, amended: when the handshake of a connection carries a trader id, or
arrives on a socket descriptor, that the connection table holds already, the
table is left as it is, so the new record is not registered, and the reader
goes on to the frames of that connection: the order of a first complete frame
is pushed onto the work queue, with a weak pointer to the record that is not
registered, and the reading continues. -/
theorem reader_duplicate_handshake (socket : Int) (buf : List Char)
    (r : read_t transmission.order_t) (reads : List (read_t transmission.order_t))
    (s : socket_server_t)
    (hdup : ∃ c ∈ s.conn_info_table_, c.trader_id_ = atoi buf ∨ c.socket_ = socket)
    (hn : r.n = (transmission.sizeof_order_t : Int)) :
    reader_thread socket ⟨8, buf⟩ (r :: reads) s =
      reader_loop ⟨s.next_addr, atoi buf, socket⟩ reads
        { s with work_queue_ :=
                   s.work_queue_.push (reader_order (s.next_addr + 1) s.next_addr r.buf),
                 next_addr := s.next_addr + 1 + 1 } := by
  have hi := conn_info_table_insert_of_present s.conn_info_table_
    ⟨s.next_addr, atoi buf, socket⟩ hdup
  simp only [reader_thread, ne_eq, not_true_eq_false, if_false, hi]
  rw [reader_loop_complete _ r reads _ hn]

/-- A second connection of trader 100 as an instance of the amended C17. -/
theorem reader_duplicate_handshake_witness :
    reader_thread 6 ⟨8, padded "100" 8⟩ [⟨88, frame_P10⟩] server_c =
      reader_loop ⟨server_c.next_addr, atoi (padded "100" 8), 6⟩ []
        { server_c with
          work_queue_ :=
            server_c.work_queue_.push
              (reader_order (server_c.next_addr + 1) server_c.next_addr frame_P10),
          next_addr := server_c.next_addr + 1 + 1 } :=
  reader_duplicate_handshake 6 (padded "100" 8) ⟨88, frame_P10⟩ [] server_c
    ⟨conn_c, by decide, by decide⟩ (by decide)

/-! ## The incoming order after the loop -/

/-- After a call on a range that is not empty, the incoming order either has
balance zero and was appended to the notification list, or has a positive
balance and is in the table. -/
theorem process_order_order_fate (orders_ : order_table_t) (order : order_ptr)
    (to_notify : orders_t)
    (hne : equal_range orders_ order.stock (reverse_side order.side) ≠ []) :
    ∃ app : orders_t,
      (order_manager_t.process_order orders_ order to_notify).to_notify = to_notify ++ app ∧
      (order_manager_t.process_order orders_ order to_notify).order.addr = order.addr ∧
      (((order_manager_t.process_order orders_ order to_notify).order.balance = 0 ∧
          (order_manager_t.process_order orders_ order to_notify).order ∈ app) ∨
        (0 < (order_manager_t.process_order orders_ order to_notify).order.balance ∧
          (order_manager_t.process_order orders_ order to_notify).order ∈
            (order_manager_t.process_order orders_ order to_notify).orders_)) := by
  refine process_order_cases order
    (fun rest o tn f o1 n =>
      (0 < o.balance ∨ equal_range rest order.stock (reverse_side order.side) ≠ []) →
      ∃ app : orders_t, n = tn ++ app ∧ o1.addr = o.addr ∧
        ((o1.balance = 0 ∧ o1 ∈ app) ∨ (0 < o1.balance ∧ o1 ∈ f)))
    ?_ ?_ ?_ ?_ ?_ orders_ to_notify (Or.inr hne)
  · intro o tn h
    rcases h with h | h
    · exact ⟨[], by simp, rfl, Or.inr ⟨h, List.mem_singleton_self o⟩⟩
    · exact absurd rfl h
  · intro rhs rest o tn f o1 n hk ih h
    have h2 : 0 < o.balance ∨ equal_range rest order.stock (reverse_side order.side) ≠ [] := by
      rcases h with h | h
      · exact Or.inl h
      · rw [equal_range_cons_of_not_key rest hk] at h
        exact Or.inr h
    obtain ⟨app, g1, g2, g3⟩ := ih h2
    refine ⟨app, g1, g2, ?_⟩
    rcases g3 with g3 | g3
    · exact Or.inl g3
    · exact Or.inr ⟨g3.1, List.mem_cons_of_mem _ g3.2⟩
  · intro rhs rest o tn _ _ _ _
    exact ⟨[{ rhs with balance := 0 }, { o with balance := 0 }], by simp, rfl,
      Or.inl ⟨rfl, by simp⟩⟩
  · intro rhs rest o tn _ _ _ _
    exact ⟨[{ o with balance := 0 }], by simp, rfl, Or.inl ⟨rfl, by simp⟩⟩
  · intro rhs rest o tn f o1 n _ _ hpos ih _
    obtain ⟨app, g1, g2, g3⟩ := ih (Or.inl hpos)
    refine ⟨{ rhs with balance := 0 } :: app, by simp [g1], g2, ?_⟩
    rcases g3 with g3 | g3
    · exact Or.inl ⟨g3.1, List.mem_cons_of_mem _ g3.2⟩
    · exact Or.inr g3

/-- C20: when the equal range of the reverse side is not empty, after
`process_order` the incoming order is in the table exactly when its final
balance is positive, and it is among the orders appended to the notification
list exactly when its final balance is zero. -/
theorem process_order_inserted_iff (orders_ : order_table_t) (order : order_ptr)
    (to_notify : orders_t)
    (hne : equal_range orders_ order.stock (reverse_side order.side) ≠ [])
    (hnd : ((orders_ ++ [order]).map order_t.addr).Nodup) :
    ∃ app : orders_t,
      (order_manager_t.process_order orders_ order to_notify).to_notify = to_notify ++ app ∧
      (order.addr ∈ (order_manager_t.process_order orders_ order to_notify).orders_.map
          order_t.addr ↔
        0 < (order_manager_t.process_order orders_ order to_notify).order.balance) ∧
      (order.addr ∈ app.map order_t.addr ↔
        (order_manager_t.process_order orders_ order to_notify).order.balance = 0) := by
  obtain ⟨app, g1, g2, g3⟩ := process_order_order_fate orders_ order to_notify hne
  obtain ⟨app2, p1, _, p3⟩ := process_order_pointers orders_ order to_notify
  have happ : app2 = app := List.append_cancel_left (p1.symm.trans g1)
  subst happ
  have hnd2 := p3.nodup_iff.mpr hnd
  rw [List.map_append] at hnd2
  have hdis := List.disjoint_of_nodup_append hnd2
  refine ⟨app2, g1, ?_, ?_⟩
  · rcases g3 with ⟨gb, gm⟩ | ⟨gb, gm⟩
    · have hin : order.addr ∈ app2.map order_t.addr :=
        List.mem_map.mpr ⟨_, gm, g2⟩
      constructor
      · intro h
        exact absurd hin (fun h2 => hdis h h2)
      · intro h
        omega
    · have hin : order.addr ∈
          (order_manager_t.process_order orders_ order to_notify).orders_.map order_t.addr :=
        List.mem_map.mpr ⟨_, gm, g2⟩
      exact ⟨fun _ => gb, fun _ => hin⟩
  · rcases g3 with ⟨gb, gm⟩ | ⟨gb, gm⟩
    · have hin : order.addr ∈ app2.map order_t.addr :=
        List.mem_map.mpr ⟨_, gm, g2⟩
      exact ⟨fun _ => gb, fun _ => hin⟩
    · have hin : order.addr ∈
          (order_manager_t.process_order orders_ order to_notify).orders_.map order_t.addr :=
        List.mem_map.mpr ⟨_, gm, g2⟩
      constructor
      · intro h
        exact absurd h (fun h2 => hdis hin h2)
      · intro h
        omega

/-- An incoming `SELL 50` against the resting `BUY 30` of scenario S4, left with
balance 20 and inserted, as an instance of C20. -/
theorem process_order_inserted_iff_witness :
    (order_manager_t.process_order [order_A30] order_B50 []).order.balance = 20 ∧
    ∃ app : orders_t,
      (order_manager_t.process_order [order_A30] order_B50 []).to_notify = [] ++ app ∧
      (order_B50.addr ∈ (order_manager_t.process_order [order_A30] order_B50 []).orders_.map
          order_t.addr ↔
        0 < (order_manager_t.process_order [order_A30] order_B50 []).order.balance) ∧
      (order_B50.addr ∈ app.map order_t.addr ↔
        (order_manager_t.process_order [order_A30] order_B50 []).order.balance = 0) :=
  ⟨by decide, process_order_inserted_iff [order_A30] order_B50 [] (by decide) (by decide)⟩

/-! ## The processor and the notifications -/

theorem processor_notify_eq (stock0 trader0 : List Char) (readers : List conn_info_ptr)
    (s : socket_server_t) (to_notify : List order_ptr) :
    processor_notify stock0 trader0 readers s to_notify =
      to_notify.filterMap (fun o =>
        (order_t.lock_conn_info s readers o).map (fun conn =>
          (conn.socket_, transmission.order_t.of_order_ptr stock0 trader0 o))) := by
  induction to_notify with
  | nil => simp [processor_notify]
  | cons o rest ih =>
    cases h : order_t.lock_conn_info s readers o with
    | none =>
      simp only [processor_notify, h, List.filterMap_cons, Option.map_none']
      exact ih
    | some conn =>
      simp only [processor_notify, h, List.filterMap_cons, Option.map_some']
      rw [ih]

theorem writes_frames {A B : Type} (lock : A → Option conn_info_ptr) (frame : A → B)
    (l : List A) :
    (l.filterMap (fun o => (lock o).map (fun conn => (conn.socket_, frame o)))).map Prod.snd =
      (l.filter (fun o => (lock o).isSome)).map frame := by
  induction l with
  | nil => simp
  | cons o rest ih =>
    cases h : lock o with
    | none => simp [List.filterMap_cons, List.filter_cons, h, ih]
    | some conn => simp [List.filterMap_cons, List.filter_cons, h, ih]

theorem writes_sockets {A B : Type} (lock : A → Option conn_info_ptr) (frame : A → B)
    (l : List A) :
    (l.filterMap (fun o => (lock o).map (fun conn => (conn.socket_, frame o)))).map Prod.fst =
      l.filterMap (fun o => (lock o).map (fun conn => conn.socket_)) := by
  induction l with
  | nil => simp
  | cons o rest ih =>
    cases h : lock o with
    | none => simp [List.filterMap_cons, h, ih]
    | some conn => simp [List.filterMap_cons, h, ih]

/-- C21: with an order at the front of the work queue, one round of
`processor_thread` returns; it takes the order off the queue, leaves the table
`process_order` returns for it, and for the notification list of that call it
issues one `write` for each notified order whose weak pointer locks to a live
record, on the socket of that record and with the frame built from that order,
in the order of the list, and no `write` for an order whose weak pointer does
not lock.  A record is live when the connection table or a reader in its frame
loop holds it. -/
theorem processor_thread_fan_out (stock0 trader0 : List Char) (readers : List conn_info_ptr)
    (s : socket_server_t) (order : order_ptr) (queued : List order_ptr)
    (hq : s.work_queue_.queue_ = order :: queued) :
    processor_thread stock0 trader0 readers s =
      some ({ s with work_queue_ := ⟨queued⟩,
                     order_manager_ :=
                       (order_manager_t.process_order s.order_manager_ order []).orders_ },
        (order_manager_t.process_order s.order_manager_ order []).to_notify.filterMap
          (fun o => (order_t.lock_conn_info s readers o).map (fun conn =>
            (conn.socket_, transmission.order_t.of_order_ptr stock0 trader0 o)))) ∧
    (processor_thread stock0 trader0 readers s).map (fun r => r.2.map Prod.snd) =
      some (((order_manager_t.process_order s.order_manager_ order []).to_notify.filter
        (fun o => (order_t.lock_conn_info s readers o).isSome)).map
          (transmission.order_t.of_order_ptr stock0 trader0)) ∧
    (processor_thread stock0 trader0 readers s).map (fun r => r.2.map Prod.fst) =
      some ((order_manager_t.process_order s.order_manager_ order []).to_notify.filterMap
        (fun o => (order_t.lock_conn_info s readers o).map (fun conn => conn.socket_))) := by
  have h1 : processor_thread stock0 trader0 readers s =
      some ({ s with work_queue_ := ⟨queued⟩,
                     order_manager_ :=
                       (order_manager_t.process_order s.order_manager_ order []).orders_ },
        (order_manager_t.process_order s.order_manager_ order []).to_notify.filterMap
          (fun o => (order_t.lock_conn_info s readers o).map (fun conn =>
            (conn.socket_, transmission.order_t.of_order_ptr stock0 trader0 o)))) := by
    have hp : s.work_queue_.pop_front = some (order, ⟨queued⟩) := by
      simp [concurrent.queue_t.pop_front, hq]
    simp only [processor_thread, hp, processor_notify_eq]
    rfl
  refine ⟨h1, ?_, ?_⟩
  · rw [h1]
    simp only [Option.map_some']
    rw [writes_frames]
  · rw [h1]
    simp only [Option.map_some']
    rw [writes_sockets]

/-- An instance of C21 with a record the connection table refused.  Trader 100
sends `SELL 10` on socket 5 and the processor stores it; a second connection of
trader 100, on socket 6, is not registered and sends `BUY 4`, which the
processor fills: while the reader of socket 6 is in its frame loop the frame of
the filled order is written on socket 6, and once that reader has dropped its
record nothing is written. -/
theorem processor_thread_fan_out_witness :
    processor_thread (padded "" 8) (padded "" 64) [⟨0, 100, 5⟩]
        (reader_thread 5 ⟨8, padded "100" 8⟩ [⟨88, frame_P10⟩] socket_server_t.start) =
      some (server_sold, []) ∧
    reader_thread 6 ⟨8, padded "100" 8⟩ [⟨88, frame_Q4⟩] server_sold = server_dup ∧
    reader_thread_cip 6 ⟨8, padded "100" 8⟩ [⟨88, frame_Q4⟩] server_sold = some conn_dup ∧
    conn_dup ∉ server_dup.conn_info_table_ ∧
    (processor_thread (padded "" 8) (padded "" 64) [⟨0, 100, 5⟩, conn_dup] server_dup).map
        (fun r => r.2) =
      some [(6, transmission.order_t.of_order_ptr (padded "" 8) (padded "" 64)
        { order_t.make 3 "IBM" "Q" 8 4 side_t.buy (some 2) with balance := 0 })] ∧
    (processor_thread (padded "" 8) (padded "" 64) [⟨0, 100, 5⟩] server_dup).map
        (fun r => r.2) = some [] ∧
    (processor_thread (padded "" 8) (padded "" 64) [⟨0, 100, 5⟩, conn_dup] server_dup =
      some ({ server_dup with
              work_queue_ := ⟨[]⟩,
              order_manager_ :=
                (order_manager_t.process_order server_dup.order_manager_
                  (order_t.make 3 "IBM" "Q" 8 4 side_t.buy (some 2)) []).orders_ },
        (order_manager_t.process_order server_dup.order_manager_
          (order_t.make 3 "IBM" "Q" 8 4 side_t.buy (some 2)) []).to_notify.filterMap
          (fun o => (order_t.lock_conn_info server_dup [⟨0, 100, 5⟩, conn_dup] o).map
            (fun conn =>
              (conn.socket_,
                transmission.order_t.of_order_ptr (padded "" 8) (padded "" 64) o)))) ∧
    (processor_thread (padded "" 8) (padded "" 64) [⟨0, 100, 5⟩, conn_dup] server_dup).map
        (fun r => r.2.map Prod.snd) =
      some (((order_manager_t.process_order server_dup.order_manager_
          (order_t.make 3 "IBM" "Q" 8 4 side_t.buy (some 2)) []).to_notify.filter
        (fun o => (order_t.lock_conn_info server_dup [⟨0, 100, 5⟩, conn_dup] o).isSome)).map
          (transmission.order_t.of_order_ptr (padded "" 8) (padded "" 64))) ∧
    (processor_thread (padded "" 8) (padded "" 64) [⟨0, 100, 5⟩, conn_dup] server_dup).map
        (fun r => r.2.map Prod.fst) =
      some ((order_manager_t.process_order server_dup.order_manager_
          (order_t.make 3 "IBM" "Q" 8 4 side_t.buy (some 2)) []).to_notify.filterMap
        (fun o => (order_t.lock_conn_info server_dup [⟨0, 100, 5⟩, conn_dup] o).map
          (fun conn => conn.socket_)))) :=
  ⟨by decide, by decide, by decide, by decide, by decide, by decide,
    processor_thread_fan_out (padded "" 8) (padded "" 64) [⟨0, 100, 5⟩, conn_dup] server_dup
      (order_t.make 3 "IBM" "Q" 8 4 side_t.buy (some 2)) [] (by decide)⟩

/-- C22 on the code: a frame read of 40 bytes on the registered connection of
trader 100, socket 5, makes the reader leave its loop with the record still in
the table and the socket not closed. -/
theorem reader_short_read_keeps_connection :
    reader_loop conn_c [⟨40, frame_P10⟩, ⟨88, frame_P10⟩] server_c = server_c ∧
    (reader_loop conn_c [⟨40, frame_P10⟩, ⟨88, frame_P10⟩] server_c).conn_info_table_ =
      [conn_c] ∧
    (reader_loop conn_c [⟨40, frame_P10⟩, ⟨88, frame_P10⟩] server_c).closed = [] := by
  decide

/-- C23 as stated fails: the handshake `abc` registers a record of trader 0,
the handshake `12ab` a record of trader 12, and in both cases the order of the
first frame is pushed onto the work queue. -/
theorem reader_handshake_garbage_registered :
    (reader_thread 5 ⟨8, padded "abc" 8⟩ [⟨88, frame_P10⟩]
      socket_server_t.start).conn_info_table_ = [⟨0, 0, 5⟩] ∧
    (reader_thread 5 ⟨8, padded "12ab" 8⟩ [⟨88, frame_P10⟩]
      socket_server_t.start).conn_info_table_ = [⟨0, 12, 5⟩] ∧
    (reader_thread 5 ⟨8, padded "abc" 8⟩ [⟨88, frame_P10⟩]
      socket_server_t.start).work_queue_.queue_ =
        [order_t.make 1 "IBM" "P" 7 10 side_t.sell (some 0)] ∧
    ¬ ((reader_thread 5 ⟨8, padded "abc" 8⟩ [⟨88, frame_P10⟩]
        socket_server_t.start).conn_info_table_ = [] ∧
      (reader_thread 5 ⟨8, padded "abc" 8⟩ [⟨88, frame_P10⟩]
        socket_server_t.start).work_queue_ = socket_server_t.start.work_queue_) := by
  decide

theorem conn_info_table_insert_of_absent (t : conn_info_table_t) (cip : conn_info_ptr)
    (h : ∀ c ∈ t, c.trader_id_ ≠ cip.trader_id_ ∧ c.socket_ ≠ cip.socket_) :
    conn_info_table_insert t cip = t ++ [cip] := by
  have ha : ¬ (t.any (fun c => decide (c.trader_id_ = cip.trader_id_ ∨ c.socket_ = cip.socket_))
      = true) := by
    rw [List.any_eq_true]
    rintro ⟨c, hc, hk⟩
    have hk2 : c.trader_id_ = cip.trader_id_ ∨ c.socket_ = cip.socket_ := by simpa using hk
    rcases hk2 with hk2 | hk2
    · exact (h c hc).1 hk2
    · exact (h c hc).2 hk2
  unfold conn_info_table_insert
  rw [if_neg ha]

theorem atoi_of_other (c : Char) (cs : List Char) (h1 : is_space c = false)
    (h2 : c.toNat ≠ 45) (h3 : c.toNat ≠ 43) (h4 : ¬ (48 ≤ c.toNat ∧ c.toNat ≤ 57)) :
    atoi (c :: cs) = 0 := by
  simp [atoi, List.dropWhile_cons, h1, h2, h3, atoi_digits, h4]

/-- C23, amended: for every handshake of 8 bytes, whatever its content, the
reader takes the value `atoi` gives for it as the trader id, which is 0 when
the first byte is neither white space, a sign nor a digit; when neither that id
nor the socket is in the connection table the reader registers a record with
that id and goes on to the frames of the socket, pushing the order of a first
complete frame onto the work queue. -/
theorem reader_handshake_any (socket : Int) (buf : List Char)
    (r : read_t transmission.order_t) (reads : List (read_t transmission.order_t))
    (s : socket_server_t)
    (hnew : ∀ c ∈ s.conn_info_table_, c.trader_id_ ≠ atoi buf ∧ c.socket_ ≠ socket)
    (hn : r.n = (transmission.sizeof_order_t : Int)) :
    reader_thread socket ⟨8, buf⟩ (r :: reads) s =
      reader_loop ⟨s.next_addr, atoi buf, socket⟩ reads
        { s with conn_info_table_ := s.conn_info_table_ ++ [⟨s.next_addr, atoi buf, socket⟩],
                 work_queue_ :=
                   s.work_queue_.push (reader_order (s.next_addr + 1) s.next_addr r.buf),
                 next_addr := s.next_addr + 1 + 1 } ∧
    (∀ (c : Char) (cs : List Char), buf = c :: cs → is_space c = false → c.toNat ≠ 45 →
      c.toNat ≠ 43 → ¬ (48 ≤ c.toNat ∧ c.toNat ≤ 57) → atoi buf = 0) := by
  constructor
  · have hi := conn_info_table_insert_of_absent s.conn_info_table_
      ⟨s.next_addr, atoi buf, socket⟩ hnew
    simp only [reader_thread, ne_eq, not_true_eq_false, if_false, hi]
    rw [reader_loop_complete _ r reads _ hn]
  · intro c cs hb h1 h2 h3 h4
    rw [hb]
    exact atoi_of_other c cs h1 h2 h3 h4

/-- The handshake `abc` on a server without connections as an instance of the
amended C23. -/
theorem reader_handshake_any_witness :
    atoi (padded "abc" 8) = 0 ∧
    reader_thread 5 ⟨8, padded "abc" 8⟩ [⟨88, frame_P10⟩] socket_server_t.start =
      reader_loop ⟨socket_server_t.start.next_addr, atoi (padded "abc" 8), 5⟩ []
        { socket_server_t.start with
          conn_info_table_ :=
            socket_server_t.start.conn_info_table_ ++
              [⟨socket_server_t.start.next_addr, atoi (padded "abc" 8), 5⟩],
          work_queue_ :=
            socket_server_t.start.work_queue_.push
              (reader_order (socket_server_t.start.next_addr + 1)
                socket_server_t.start.next_addr frame_P10),
          next_addr := socket_server_t.start.next_addr + 1 + 1 } :=
  ⟨by decide,
    (reader_handshake_any 5 (padded "abc" 8) ⟨88, frame_P10⟩ [] socket_server_t.start
      (by decide) (by decide)).1⟩

/-! ## The match arithmetic -/

theorem match_loop_eq_unbounded (stock : String) (side : side_t) (rest : List order_ptr) :
    ∀ (order : order_ptr) (m : Bool) (tn : orders_t),
      (∀ x ∈ rest, 0 ≤ x.balance ∧ x.balance ≤ INT_MAX) →
      (0 ≤ order.balance ∧ order.balance ≤ INT_MAX) →
      match_loop stock side rest order m tn = match_loop_unbounded stock side rest order m tn := by
  induction rest with
  | nil => intro order m tn _ _; rfl
  | cons rhs rest ih =>
    intro order m tn hr ho
    have hrhs := hr rhs (List.mem_cons_self _ _)
    have hr2 : ∀ x ∈ rest, 0 ≤ x.balance ∧ x.balance ≤ INT_MAX :=
      fun x hx => hr x (List.mem_cons_of_mem _ hx)
    have e1 : int_sub rhs.balance order.balance = rhs.balance - order.balance := by
      apply int_sub_eq <;> simp only [INT_MIN, INT_MAX] at * <;> omega
    have e2 : int_sub order.balance rhs.balance = order.balance - rhs.balance := by
      apply int_sub_eq <;> simp only [INT_MIN, INT_MAX] at * <;> omega
    by_cases hk : ssi_key stock side rhs = true
    · by_cases hl : order.balance - rhs.balance ≤ 0
      · simp only [match_loop, match_loop_unbounded, hk, if_true, e1, e2, hl]
      · have ho2 : 0 ≤ order.balance - rhs.balance ∧ order.balance - rhs.balance ≤ INT_MAX := by
          simp only [INT_MAX] at *
          omega
        have h1 := ih { order with balance := order.balance - rhs.balance } true
          (if rhs.balance - order.balance ≤ 0 then tn ++ [{ rhs with balance := 0 }] else tn)
          hr2 ho2
        simp only [match_loop, match_loop_unbounded, hk, if_true, e1, e2, hl, if_false, h1]
    · have hk2 : ssi_key stock side rhs = false := by simpa using hk
      simp [match_loop, match_loop_unbounded, hk2, ih order m tn hr2 ho]

/-- C24: for balances `r` and `q` between 0 and `INT_MAX` the two differences
of the loop, taken in 32 bit arithmetic, are the differences over the
integers; and on a table and an incoming order with such balances
`process_order` returns the table, the incoming order and the notification
list that it returns with the differences taken over the unbounded integers. -/
theorem process_order_no_overflow (orders_ : order_table_t) (order : order_ptr)
    (to_notify : orders_t)
    (hrest : ∀ x ∈ orders_, 0 ≤ x.balance ∧ x.balance ≤ INT_MAX)
    (ho : 0 ≤ order.balance ∧ order.balance ≤ INT_MAX) :
    (∀ r q : Int, 0 ≤ r → r ≤ INT_MAX → 0 ≤ q → q ≤ INT_MAX →
      int_sub r q = r - q ∧ int_sub q r = q - r) ∧
    order_manager_t.process_order orders_ order to_notify =
      process_order_unbounded orders_ order to_notify := by
  constructor
  · intro r q h1 h2 h3 h4
    constructor <;> apply int_sub_eq <;> simp only [INT_MIN, INT_MAX] at * <;> omega
  · simp only [order_manager_t.process_order, process_order_unbounded,
      match_loop_eq_unbounded order.stock (reverse_side order.side) orders_ order false
        to_notify hrest ho]

/-- Scenario S4 as an instance of C24, with a resting balance of `INT_MAX`. -/
theorem process_order_no_overflow_witness :
    int_sub 0 INT_MAX = 0 - INT_MAX ∧
    order_manager_t.process_order [{ order_A30 with balance := INT_MAX }, order_C40]
        order_B50 [] =
      process_order_unbounded [{ order_A30 with balance := INT_MAX }, order_C40]
        order_B50 [] :=
  ⟨((process_order_no_overflow [{ order_A30 with balance := INT_MAX }, order_C40]
      order_B50 [] (by decide) (by decide)).1 INT_MAX 0 (by decide) (by decide) (by decide)
      (by decide)).2,
    (process_order_no_overflow [{ order_A30 with balance := INT_MAX }, order_C40]
      order_B50 [] (by decide) (by decide)).2⟩

/-! ## Sides resting in the table -/

theorem reverse_side_ne (s : side_t) : reverse_side s ≠ s := by
  cases s <;> simp [reverse_side]

theorem side_eq_or_reverse (s u : side_t) : u = s ∨ u = reverse_side s := by
  cases s <;> cases u <;> simp [reverse_side]

theorem ssi_key_reverse_of_side (order o : order_ptr) (h : o.side = order.side) :
    ssi_key order.stock (reverse_side order.side) o = false := by
  simp only [ssi_key, decide_eq_false_iff_not, not_and]
  intro _ h2
  exact reverse_side_ne order.side (h2.symm.trans h)

/-- Every order in the table after a call has the stock and side of an order
stored before the call, or has the stock and side of the incoming order while
the table holds no order of the reverse side of that stock. -/
theorem process_order_sides (orders_ : order_table_t) (order : order_ptr)
    (to_notify : orders_t) :
    ∀ x ∈ (order_manager_t.process_order orders_ order to_notify).orders_,
      (∃ y ∈ orders_, y.stock = x.stock ∧ y.side = x.side) ∨
      (x.stock = order.stock ∧ x.side = order.side ∧
        ∀ z ∈ (order_manager_t.process_order orders_ order to_notify).orders_,
          ssi_key order.stock (reverse_side order.side) z = false) := by
  refine process_order_cases order
    (fun rest o _ f _ _ => o.stock = order.stock → o.side = order.side →
      ∀ x ∈ f, (∃ y ∈ rest, y.stock = x.stock ∧ y.side = x.side) ∨
        (x.stock = order.stock ∧ x.side = order.side ∧
          ∀ z ∈ f, ssi_key order.stock (reverse_side order.side) z = false))
    ?_ ?_ ?_ ?_ ?_ orders_ to_notify rfl rfl
  · intro o tn hst hsd x hx
    rw [List.mem_singleton.mp hx]
    refine Or.inr ⟨hst, hsd, ?_⟩
    intro z hz
    rw [List.mem_singleton.mp hz]
    exact ssi_key_reverse_of_side order o hsd
  · intro rhs rest o tn f o1 n hk ih hst hsd x hx
    rcases List.mem_cons.mp hx with hx | hx
    · exact Or.inl ⟨rhs, List.mem_cons_self _ _, by rw [hx], by rw [hx]⟩
    · rcases ih hst hsd x hx with ⟨y, hy, g⟩ | ⟨g1, g2, g3⟩
      · exact Or.inl ⟨y, List.mem_cons_of_mem _ hy, g⟩
      · refine Or.inr ⟨g1, g2, ?_⟩
        intro z hz
        rcases List.mem_cons.mp hz with hz | hz
        · rw [hz]; exact hk
        · exact g3 z hz
  · intro rhs rest o tn _ _ _ _ _ x hx
    exact Or.inl ⟨x, List.mem_cons_of_mem _ hx, rfl, rfl⟩
  · intro rhs rest o tn _ _ _ _ _ x hx
    rcases List.mem_cons.mp hx with hx | hx
    · exact Or.inl ⟨rhs, List.mem_cons_self _ _, by rw [hx], by rw [hx]⟩
    · exact Or.inl ⟨x, List.mem_cons_of_mem _ hx, rfl, rfl⟩
  · intro rhs rest o tn f o1 n _ _ _ ih hst hsd x hx
    rcases ih hst hsd x hx with ⟨y, hy, g⟩ | g
    · exact Or.inl ⟨y, List.mem_cons_of_mem _ hy, g⟩
    · exact Or.inr g

/-- A table in which orders of the same stock have the same side stays such a
table across a call. -/
theorem process_order_one_side (orders_ : order_table_t) (order : order_ptr)
    (to_notify : orders_t)
    (h : ∀ x ∈ orders_, ∀ y ∈ orders_, x.stock = y.stock → x.side = y.side) :
    ∀ x ∈ (order_manager_t.process_order orders_ order to_notify).orders_,
      ∀ y ∈ (order_manager_t.process_order orders_ order to_notify).orders_,
        x.stock = y.stock → x.side = y.side := by
  have key : ∀ x ∈ (order_manager_t.process_order orders_ order to_notify).orders_,
      ∀ z ∈ (order_manager_t.process_order orders_ order to_notify).orders_,
        (∀ w ∈ (order_manager_t.process_order orders_ order to_notify).orders_,
          ssi_key order.stock (reverse_side order.side) w = false) →
        z.stock = order.stock → z.side = order.side := by
    intro x _ z hz hw hst
    rcases side_eq_or_reverse order.side z.side with hs | hs
    · exact hs
    · have := hw z hz
      simp [ssi_key, hst, hs] at this
  intro x hx y hy hxy
  rcases process_order_sides orders_ order to_notify x hx with ⟨x0, hx0, gx⟩ | ⟨gx1, gx2, gx3⟩
  · rcases process_order_sides orders_ order to_notify y hy with ⟨y0, hy0, gy⟩ | ⟨gy1, gy2, gy3⟩
    · have := h x0 hx0 y0 hy0 (by rw [gx.1, gy.1, hxy])
      rw [← gx.2, ← gy.2, this]
    · rw [gy2]
      exact key y hy x hx gy3 (hxy.trans gy1)
  · rw [gx2]
    rcases process_order_sides orders_ order to_notify y hy with ⟨y0, hy0, gy⟩ | ⟨gy1, gy2, gy3⟩
    · exact (key x hx y hy gx3 (hxy.symm.trans gx1)).symm
    · exact gy2.symm

/-- C26: after every call of a sequence of calls from the empty table, on
orders of any quantity, there is no stock of which the table holds both a buy
order and a sell order. -/
theorem run_uncrossed (os : List order_ptr) (k : Nat) :
    ¬ ∃ t : String,
      (∃ x ∈ (run (os.take k)).orders_, x.stock = t ∧ x.side = side_t.buy) ∧
      (∃ y ∈ (run (os.take k)).orders_, y.stock = t ∧ y.side = side_t.sell) := by
  have hinv := run_invariant (fun _ => True)
    (fun _ s => ∀ x ∈ s.orders_, ∀ y ∈ s.orders_, x.stock = y.stock → x.side = y.side)
    (by simp)
    (fun _ s o j _ => by
      simpa [submit] using process_order_one_side s.orders_ o [] j)
    (os.take k) (fun _ _ => trivial)
  rintro ⟨t, ⟨x, hx, hxt, hxs⟩, ⟨y, hy, hyt, hys⟩⟩
  have := hinv x hx y hy (hxt.trans hyt.symm)
  rw [hxs, hys] at this
  exact absurd this (by decide)

/-- Scenario S4 followed by a sell order of another stock as an instance of
C26. -/
theorem run_uncrossed_witness :
    (run ([order_A30, order_C40, order_B50, order_E25].take 4)).orders_ =
      [{ order_C40 with balance := 20 }, order_E25] ∧
    ¬ ∃ t : String,
      (∃ x ∈ (run ([order_A30, order_C40, order_B50, order_E25].take 4)).orders_,
        x.stock = t ∧ x.side = side_t.buy) ∧
      (∃ y ∈ (run ([order_A30, order_C40, order_B50, order_E25].take 4)).orders_,
        y.stock = t ∧ y.side = side_t.sell) :=
  ⟨by decide, run_uncrossed [order_A30, order_C40, order_B50, order_E25] 4⟩

/-! ## What a call leaves untouched -/

/-- C29: `process_order` keeps in the table, as it is, every stored order whose
stock differs from that of the incoming order or whose side is that of the
incoming order; every order in the table or appended to the notification list
after the call is an order stored before it, or the incoming order, with at
most the balance changed; and the incoming order has at most its balance
changed. -/
theorem process_order_frame (orders_ : order_table_t) (order : order_ptr)
    (to_notify : orders_t) :
    ∃ app : orders_t,
      (order_manager_t.process_order orders_ order to_notify).to_notify = to_notify ++ app ∧
      (∀ x ∈ orders_, (x.stock ≠ order.stock ∨ x.side = order.side) →
        x ∈ (order_manager_t.process_order orders_ order to_notify).orders_) ∧
      (∀ y ∈ (order_manager_t.process_order orders_ order to_notify).orders_ ++ app,
        ∃ x ∈ orders_ ++ [order], y = { x with balance := y.balance }) ∧
      (order_manager_t.process_order orders_ order to_notify).order =
        { order with
          balance := (order_manager_t.process_order orders_ order to_notify).order.balance } := by
  have hq := process_order_cases order
    (fun rest o tn f o1 n => ∃ app : orders_t, n = tn ++ app ∧
      (∀ x ∈ rest, ssi_key order.stock (reverse_side order.side) x = false → x ∈ f) ∧
      (∀ y ∈ f ++ app, ∃ x ∈ rest ++ [o], y = { x with balance := y.balance }) ∧
      o1 = { o with balance := o1.balance })
    ?_ ?_ ?_ ?_ ?_ orders_ to_notify
  · obtain ⟨app, g1, g2, g3, g4⟩ := hq
    refine ⟨app, g1, ?_, g3, g4⟩
    intro x hx hside
    apply g2 x hx
    simp only [ssi_key, decide_eq_false_iff_not, not_and]
    intro hst hsd
    rcases hside with hside | hside
    · exact hside hst
    · exact reverse_side_ne order.side (hsd.symm.trans hside)
  · intro o tn
    refine ⟨[], by simp, by simp, ?_, rfl⟩
    intro y hy
    simp only [List.append_nil, List.mem_singleton] at hy
    exact ⟨o, by simp, by rw [hy]⟩
  · rintro rhs rest o tn f o1 n _ ⟨app, g1, g2, g3, g4⟩
    refine ⟨app, g1, ?_, ?_, g4⟩
    · intro x hx hkx
      rcases List.mem_cons.mp hx with hx | hx
      · rw [hx]; exact List.mem_cons_self _ _
      · exact List.mem_cons_of_mem _ (g2 x hx hkx)
    · intro y hy
      rw [List.cons_append, List.mem_cons] at hy
      rcases hy with hy | hy
      · exact ⟨rhs, by simp, by rw [hy]⟩
      · obtain ⟨x, hx, hxy⟩ := g3 y hy
        exact ⟨x, by rw [List.cons_append]; exact List.mem_cons_of_mem _ hx, hxy⟩
  · intro rhs rest o tn hk _ _
    refine ⟨[{ rhs with balance := 0 }, { o with balance := 0 }], by simp, ?_, ?_, rfl⟩
    · intro x hx hkx
      rcases List.mem_cons.mp hx with hx | hx
      · rw [hx, hk] at hkx
        exact absurd hkx (by simp)
      · exact hx
    · intro y hy
      simp only [List.mem_append, List.mem_cons, List.mem_singleton, List.not_mem_nil,
        or_false] at hy
      rcases hy with hy | hy | hy
      · exact ⟨y, by simp [hy], rfl⟩
      · exact ⟨rhs, by simp, by rw [hy]⟩
      · exact ⟨o, by simp, by rw [hy]⟩
  · intro rhs rest o tn hk _ _
    refine ⟨[{ o with balance := 0 }], by simp, ?_, ?_, rfl⟩
    · intro x hx hkx
      rcases List.mem_cons.mp hx with hx | hx
      · rw [hx, hk] at hkx
        exact absurd hkx (by simp)
      · exact List.mem_cons_of_mem _ hx
    · intro y hy
      simp only [List.mem_append, List.mem_cons, List.mem_singleton, List.not_mem_nil,
        or_false] at hy
      rcases hy with (hy | hy) | hy
      · exact ⟨rhs, by simp, by rw [hy]⟩
      · exact ⟨y, by simp [hy], rfl⟩
      · exact ⟨o, by simp, by rw [hy]⟩
  · rintro rhs rest o tn f o1 n hk _ _ ⟨app, g1, g2, g3, g4⟩
    refine ⟨{ rhs with balance := 0 } :: app, by simp [g1], ?_, ?_, ?_⟩
    · intro x hx hkx
      rcases List.mem_cons.mp hx with hx | hx
      · rw [hx, hk] at hkx
        exact absurd hkx (by simp)
      · exact g2 x hx hkx
    · intro y hy
      simp only [List.mem_append, List.mem_cons] at hy
      have hy2 : y = { rhs with balance := 0 } ∨ y ∈ f ++ app := by
        rcases hy with hy | hy | hy
        · exact Or.inr (List.mem_append_left _ hy)
        · exact Or.inl hy
        · exact Or.inr (List.mem_append_right _ hy)
      rcases hy2 with hy2 | hy2
      · exact ⟨rhs, by simp, by rw [hy2]⟩
      · obtain ⟨x, hx, hxy⟩ := g3 y hy2
        simp only [List.mem_append, List.mem_singleton] at hx
        rcases hx with hx | hx
        · exact ⟨x, by simp [hx], hxy⟩
        · exact ⟨o, by simp, by rw [hxy, hx]⟩
    · rw [g4]

/-- Scenario S4 with a resting sell order of another stock as an instance of
C29. -/
theorem process_order_frame_witness :
    (order_manager_t.process_order [order_A30, order_E25, order_C40] order_B50 []).orders_ =
      [order_E25, { order_C40 with balance := 20 }] ∧
    ∃ app : orders_t,
      (order_manager_t.process_order [order_A30, order_E25, order_C40] order_B50
        []).to_notify = [] ++ app ∧
      (∀ x ∈ [order_A30, order_E25, order_C40],
        (x.stock ≠ order_B50.stock ∨ x.side = order_B50.side) →
        x ∈ (order_manager_t.process_order [order_A30, order_E25, order_C40] order_B50
          []).orders_) ∧
      (∀ y ∈ (order_manager_t.process_order [order_A30, order_E25, order_C40] order_B50
          []).orders_ ++ app,
        ∃ x ∈ [order_A30, order_E25, order_C40] ++ [order_B50],
          y = { x with balance := y.balance }) ∧
      (order_manager_t.process_order [order_A30, order_E25, order_C40] order_B50 []).order =
        { order_B50 with
          balance := (order_manager_t.process_order [order_A30, order_E25, order_C40]
            order_B50 []).order.balance } :=
  ⟨by decide, process_order_frame [order_A30, order_E25, order_C40] order_B50 []⟩

/-! ## Amounts traded -/

/-- One iteration of the loop on a stored order of the equal range, when no
balance is negative: both balances go down by the smaller of the two. -/
theorem match_loop_iteration (stock : String) (side : side_t) (rhs : order_ptr)
    (rest : List order_ptr) (order : order_ptr) (m : Bool) (tn : orders_t)
    (hk : ssi_key stock side rhs = true)
    (hr : 0 ≤ rhs.balance ∧ rhs.balance ≤ INT_MAX)
    (ho : 0 ≤ order.balance ∧ order.balance ≤ INT_MAX) :
    match_loop stock side (rhs :: rest) order m tn =
      if order.balance ≤ rhs.balance then
        ⟨(if rhs.balance ≤ order.balance then []
            else [{ rhs with balance := rhs.balance - min rhs.balance order.balance }]) ++ rest,
          { order with balance := order.balance - min rhs.balance order.balance }, false,
          (if rhs.balance ≤ order.balance then
              tn ++ [{ rhs with balance := rhs.balance - min rhs.balance order.balance }]
            else tn) ++
            [{ order with balance := order.balance - min rhs.balance order.balance }]⟩
      else
        match_loop stock side rest
          { order with balance := order.balance - min rhs.balance order.balance } true
          (tn ++ [{ rhs with balance := rhs.balance - min rhs.balance order.balance }]) := by
  have e1 : int_sub rhs.balance order.balance = rhs.balance - order.balance := by
    apply int_sub_eq <;> simp only [INT_MIN, INT_MAX] at * <;> omega
  have e2 : int_sub order.balance rhs.balance = order.balance - rhs.balance := by
    apply int_sub_eq <;> simp only [INT_MIN, INT_MAX] at * <;> omega
  by_cases h1 : order.balance ≤ rhs.balance
  · by_cases h2 : rhs.balance ≤ order.balance
    · have h3 : rhs.balance = order.balance := le_antisymm h2 h1
      simp [match_loop, hk, h3, int_sub_self]
    · have h3 : min rhs.balance order.balance = order.balance := min_eq_right h1
      have h4 : ¬ (rhs.balance - order.balance ≤ 0) := by omega
      have h5 : order.balance - rhs.balance ≤ 0 := by omega
      simp [match_loop, hk, e1, e2, h1, h2, h3]
  · have h2 : rhs.balance ≤ order.balance := by omega
    have h3 : min rhs.balance order.balance = rhs.balance := min_eq_left h2
    have h4 : rhs.balance - order.balance ≤ 0 := by omega
    have h5 : ¬ (order.balance - rhs.balance ≤ 0) := by omega
    have h6 : ¬ (order.balance ≤ rhs.balance) := h1
    simp [match_loop, hk, e1, e2, h2, h3, h6]

/-- C27: after every call of a sequence of calls from the empty table, on
fresh orders whose quantity is not negative, the orders resting or notified
are the orders submitted, and for each stock the sum of `quantity - balance`
over the buy orders among them equals that sum over the sell orders; and one
iteration of the loop lowers the balance of the stored order and the balance
of the incoming order by the smaller of the two. -/
theorem run_traded (os : List order_ptr)
    (h : ∀ o ∈ os, 0 ≤ o.quantity ∧ o.quantity ≤ INT_MAX ∧ o.balance = o.quantity)
    (k : Nat) (t : String) (stock : String) (side : side_t) (rhs : order_ptr)
    (rest : List order_ptr) (order : order_ptr) (m : Bool) (tn : orders_t)
    (hk : ssi_key stock side rhs = true)
    (hr : 0 ≤ rhs.balance ∧ rhs.balance ≤ INT_MAX)
    (ho : 0 ≤ order.balance ∧ order.balance ≤ INT_MAX) :
    List.Perm
      (((run (os.take k)).orders_ ++ (run (os.take k)).notified).map order_t.addr)
      ((os.take k).map order_t.addr) ∧
    filled t side_t.buy ((run (os.take k)).orders_ ++ (run (os.take k)).notified) =
      filled t side_t.sell ((run (os.take k)).orders_ ++ (run (os.take k)).notified) ∧
    match_loop stock side (rhs :: rest) order m tn =
      if order.balance ≤ rhs.balance then
        ⟨(if rhs.balance ≤ order.balance then []
            else [{ rhs with balance := rhs.balance - min rhs.balance order.balance }]) ++ rest,
          { order with balance := order.balance - min rhs.balance order.balance }, false,
          (if rhs.balance ≤ order.balance then
              tn ++ [{ rhs with balance := rhs.balance - min rhs.balance order.balance }]
            else tn) ++
            [{ order with balance := order.balance - min rhs.balance order.balance }]⟩
      else
        match_loop stock side rest
          { order with balance := order.balance - min rhs.balance order.balance } true
          (tn ++ [{ rhs with balance := rhs.balance - min rhs.balance order.balance }]) :=
  ⟨run_pointers (os.take k),
    run_filled (os.take k) (fun o ho2 => h o (List.mem_of_mem_take ho2)) t,
    match_loop_iteration stock side rhs rest order m tn hk hr ho⟩

/-- Scenario S3 as an instance of C27: 40 traded on both sides, and the
iteration that lowers `BUY 100` and `SELL 40` by 40. -/
theorem run_traded_witness :
    filled "IBM" side_t.buy
      ((run ([order_A, order_B40].take 2)).orders_ ++
        (run ([order_A, order_B40].take 2)).notified) = 40 ∧
    (List.Perm
      (((run ([order_A, order_B40].take 2)).orders_ ++
        (run ([order_A, order_B40].take 2)).notified).map order_t.addr)
      (([order_A, order_B40].take 2).map order_t.addr) ∧
    filled "IBM" side_t.buy
        ((run ([order_A, order_B40].take 2)).orders_ ++
          (run ([order_A, order_B40].take 2)).notified) =
      filled "IBM" side_t.sell
        ((run ([order_A, order_B40].take 2)).orders_ ++
          (run ([order_A, order_B40].take 2)).notified) ∧
    match_loop "IBM" side_t.buy (order_A :: []) order_B40 false [] =
      if order_B40.balance ≤ order_A.balance then
        ⟨(if order_A.balance ≤ order_B40.balance then []
            else [{ order_A with
                    balance := order_A.balance - min order_A.balance order_B40.balance }]) ++ [],
          { order_B40 with balance := order_B40.balance - min order_A.balance order_B40.balance },
          false,
          (if order_A.balance ≤ order_B40.balance then
              [] ++ [{ order_A with
                       balance := order_A.balance - min order_A.balance order_B40.balance }]
            else []) ++
            [{ order_B40 with
               balance := order_B40.balance - min order_A.balance order_B40.balance }]⟩
      else
        match_loop "IBM" side_t.buy []
          { order_B40 with balance := order_B40.balance - min order_A.balance order_B40.balance }
          true
          ([] ++ [{ order_A with
                    balance := order_A.balance - min order_A.balance order_B40.balance }])) :=
  ⟨by decide,
    run_traded [order_A, order_B40] (by decide) 2 "IBM" "IBM" side_t.buy order_A [] order_B40
      false [] (by decide) (by decide) (by decide)⟩

/-! ## The residual of a call -/

theorem sum_balance_nil (stock : String) (side : side_t) : sum_balance stock side [] = 0 := by
  simp [sum_balance, equal_range]

theorem sum_balance_cons_of_key {stock : String} {side : side_t} {x : order_ptr}
    (l : List order_ptr) (h : ssi_key stock side x = true) :
    sum_balance stock side (x :: l) = x.balance + sum_balance stock side l := by
  simp [sum_balance, equal_range_cons_of_key l h]

theorem sum_balance_cons_of_not_key {stock : String} {side : side_t} {x : order_ptr}
    (l : List order_ptr) (h : ssi_key stock side x = false) :
    sum_balance stock side (x :: l) = sum_balance stock side l := by
  simp [sum_balance, equal_range_cons_of_not_key l h]

theorem sum_balance_nonneg (stock : String) (side : side_t) (l : List order_ptr)
    (h : ∀ x ∈ l, 0 ≤ x.balance ∧ x.balance ≤ INT_MAX) : 0 ≤ sum_balance stock side l := by
  induction l with
  | nil => simp [sum_balance_nil]
  | cons x l ih =>
    have hx := h x (List.mem_cons_self _ _)
    have ih2 := ih (fun y hy => h y (List.mem_cons_of_mem _ hy))
    by_cases hk : ssi_key stock side x = true
    · rw [sum_balance_cons_of_key l hk]
      omega
    · have hk2 : ssi_key stock side x = false := by simpa using hk
      rw [sum_balance_cons_of_not_key l hk2]
      exact ih2

/-- C28: on a table and an incoming order without negative balances, with `S`
the sum of the balances of the stored orders of the stock of the incoming
order and the reverse side before the call and `q` the balance of the incoming
order, after `process_order` the incoming order has balance `max 0 (q - S)`
and the balances of the orders of that stock and side in the table sum to
`max 0 (S - q)`. -/
theorem process_order_residual (orders_ : order_table_t) (order : order_ptr)
    (to_notify : orders_t)
    (hrest : ∀ x ∈ orders_, 0 ≤ x.balance ∧ x.balance ≤ INT_MAX)
    (ho : 0 ≤ order.balance ∧ order.balance ≤ INT_MAX) :
    (order_manager_t.process_order orders_ order to_notify).order.balance =
        max 0 (order.balance - sum_balance order.stock (reverse_side order.side) orders_) ∧
    sum_balance order.stock (reverse_side order.side)
        (order_manager_t.process_order orders_ order to_notify).orders_ =
      max 0 (sum_balance order.stock (reverse_side order.side) orders_ - order.balance) := by
  refine process_order_cases order
    (fun rest o _ f o1 _ => (∀ x ∈ rest, 0 ≤ x.balance ∧ x.balance ≤ INT_MAX) →
      (0 ≤ o.balance ∧ o.balance ≤ INT_MAX) → o.side = order.side →
      o1.balance = max 0 (o.balance - sum_balance order.stock (reverse_side order.side) rest) ∧
      sum_balance order.stock (reverse_side order.side) f =
        max 0 (sum_balance order.stock (reverse_side order.side) rest - o.balance))
    ?_ ?_ ?_ ?_ ?_ orders_ to_notify hrest ho rfl
  · intro o tn _ ho hsd
    rw [sum_balance_cons_of_not_key [] (ssi_key_reverse_of_side order o hsd), sum_balance_nil]
    omega
  · intro rhs rest o tn f o1 n hk ih hr ho hsd
    have g := ih (fun x hx => hr x (List.mem_cons_of_mem _ hx)) ho hsd
    rw [sum_balance_cons_of_not_key f hk, sum_balance_cons_of_not_key rest hk]
    exact g
  · intro rhs rest o tn hk h1 h2 hr ho _
    have hrhs := hr rhs (List.mem_cons_self _ _)
    have heq := int_sub_both_le_zero hrhs ho h1 h2
    have hs := sum_balance_nonneg order.stock (reverse_side order.side) rest
      (fun x hx => hr x (List.mem_cons_of_mem _ hx))
    rw [sum_balance_cons_of_key rest hk]
    simp only
    omega
  · intro rhs rest o tn hk h1 _ hr ho _
    have hrhs := hr rhs (List.mem_cons_self _ _)
    have he : int_sub rhs.balance o.balance = rhs.balance - o.balance := by
      apply int_sub_eq <;> simp only [INT_MIN, INT_MAX] at * <;> omega
    have hs := sum_balance_nonneg order.stock (reverse_side order.side) rest
      (fun x hx => hr x (List.mem_cons_of_mem _ hx))
    have hk2 : ssi_key order.stock (reverse_side order.side)
        { rhs with balance := int_sub rhs.balance o.balance } = true := by
      simpa [ssi_key] using hk
    rw [sum_balance_cons_of_key rest hk, sum_balance_cons_of_key rest hk2]
    rw [he] at h1 ⊢
    simp only
    omega
  · intro rhs rest o tn f o1 n hk h1 hpos ih hr ho hsd
    have hrhs := hr rhs (List.mem_cons_self _ _)
    have he : int_sub o.balance rhs.balance = o.balance - rhs.balance := by
      apply int_sub_eq <;> simp only [INT_MIN, INT_MAX] at * <;> omega
    rw [he] at hpos ih
    have g := ih (fun x hx => hr x (List.mem_cons_of_mem _ hx))
      (by simp only [INT_MAX] at *; omega) hsd
    have hs := sum_balance_nonneg order.stock (reverse_side order.side) rest
      (fun x hx => hr x (List.mem_cons_of_mem _ hx))
    rw [sum_balance_cons_of_key rest hk]
    simp only at g
    omega

/-- Scenario S4 as an instance of C28: 70 rest on the buy side, 50 come in. -/
theorem process_order_residual_witness :
    sum_balance order_B50.stock (reverse_side order_B50.side) [order_A30, order_C40] = 70 ∧
    (order_manager_t.process_order [order_A30, order_C40] order_B50 []).order.balance =
        max 0 (order_B50.balance -
          sum_balance order_B50.stock (reverse_side order_B50.side) [order_A30, order_C40]) ∧
    sum_balance order_B50.stock (reverse_side order_B50.side)
        (order_manager_t.process_order [order_A30, order_C40] order_B50 []).orders_ =
      max 0 (sum_balance order_B50.stock (reverse_side order_B50.side)
        [order_A30, order_C40] - order_B50.balance) :=
  ⟨by decide,
    process_order_residual [order_A30, order_C40] order_B50 [] (by decide) (by decide)⟩

/-! ## The head of the range -/

theorem equal_range_singleton_of_side (order o : order_ptr) (h : o.side = order.side) :
    equal_range [o] order.stock (reverse_side order.side) = [] := by
  rw [equal_range_cons_of_not_key [] (ssi_key_reverse_of_side order o h)]
  rfl

/-- C30: on a table and an incoming order without negative balances, the
stored orders a call of `process_order` erases are the first `k` orders of the
equal range, appended in that order and with balance zero to the notification
list, before the incoming order when that one is notified; the range of the
table after the call is the range before it without those `k` orders, except
that its first order may have its balance lowered to a positive value, in
which case the incoming order ends with balance zero. -/
theorem process_order_head (orders_ : order_table_t) (order : order_ptr)
    (to_notify : orders_t)
    (hrest : ∀ x ∈ orders_, 0 ≤ x.balance ∧ x.balance ≤ INT_MAX)
    (ho : 0 ≤ order.balance ∧ order.balance ≤ INT_MAX) :
    ∃ (k : Nat) (app : orders_t),
      (order_manager_t.process_order orders_ order to_notify).to_notify =
        to_notify ++
          ((equal_range orders_ order.stock (reverse_side order.side)).take k).map cleared ++
          app ∧
      (app = [] ∨ app = [(order_manager_t.process_order orders_ order to_notify).order]) ∧
      (equal_range (order_manager_t.process_order orders_ order to_notify).orders_
          order.stock (reverse_side order.side) =
          (equal_range orders_ order.stock (reverse_side order.side)).drop k ∨
        ∃ (R : order_ptr) (tail : List order_ptr) (b : Int),
          (equal_range orders_ order.stock (reverse_side order.side)).drop k = R :: tail ∧
          0 < b ∧ b < R.balance ∧
          equal_range (order_manager_t.process_order orders_ order to_notify).orders_
            order.stock (reverse_side order.side) = { R with balance := b } :: tail ∧
          (order_manager_t.process_order orders_ order to_notify).order.balance = 0) := by
  refine process_order_cases order
    (fun rest o tn f o1 n => (∀ x ∈ rest, 0 ≤ x.balance ∧ x.balance ≤ INT_MAX) →
      (0 ≤ o.balance ∧ o.balance ≤ INT_MAX) → o.side = order.side →
      ∃ (k : Nat) (app : orders_t),
        n = tn ++
          ((equal_range rest order.stock (reverse_side order.side)).take k).map cleared ++ app ∧
        (app = [] ∨ app = [o1]) ∧
        (equal_range f order.stock (reverse_side order.side) =
            (equal_range rest order.stock (reverse_side order.side)).drop k ∨
          ∃ (R : order_ptr) (tail : List order_ptr) (b : Int),
            (equal_range rest order.stock (reverse_side order.side)).drop k = R :: tail ∧
            0 < b ∧ b < R.balance ∧
            equal_range f order.stock (reverse_side order.side) =
              { R with balance := b } :: tail ∧
            o1.balance = 0))
    ?_ ?_ ?_ ?_ ?_ orders_ to_notify hrest ho rfl
  · intro o tn _ _ hsd
    refine ⟨0, [], by simp [equal_range], Or.inl rfl, Or.inl ?_⟩
    rw [equal_range_singleton_of_side order o hsd]
    rfl
  · intro rhs rest o tn f o1 n hk ih hr ho hsd
    obtain ⟨k, app, g1, g2, g3⟩ := ih (fun x hx => hr x (List.mem_cons_of_mem _ hx)) ho hsd
    refine ⟨k, app, ?_, g2, ?_⟩
    · rw [equal_range_cons_of_not_key rest hk]
      exact g1
    · rw [equal_range_cons_of_not_key rest hk, equal_range_cons_of_not_key f hk]
      exact g3
  · intro rhs rest o tn hk _ _ _ _ _
    refine ⟨1, [{ o with balance := 0 }], ?_, Or.inr rfl, Or.inl ?_⟩
    · rw [equal_range_cons_of_key rest hk]
      simp [cleared]
    · rw [equal_range_cons_of_key rest hk]
      rfl
  · intro rhs rest o tn hk hpos _ hr ho _
    have hrhs := hr rhs (List.mem_cons_self _ _)
    have he : int_sub rhs.balance o.balance = rhs.balance - o.balance := by
      apply int_sub_eq <;> simp only [INT_MIN, INT_MAX] at * <;> omega
    have hk2 : ssi_key order.stock (reverse_side order.side)
        { rhs with balance := int_sub rhs.balance o.balance } = true := by
      simpa [ssi_key] using hk
    refine ⟨0, [{ o with balance := 0 }], by simp, Or.inr rfl, ?_⟩
    rw [equal_range_cons_of_key rest hk, equal_range_cons_of_key rest hk2]
    by_cases hq : o.balance = 0
    · left
      have hb : int_sub rhs.balance o.balance = rhs.balance := by
        rw [he, hq]
        omega
      rw [hb]
      rfl
    · right
      refine ⟨rhs, equal_range rest order.stock (reverse_side order.side),
        int_sub rhs.balance o.balance, rfl, hpos, ?_, rfl, rfl⟩
      rw [he]
      omega
  · intro rhs rest o tn f o1 n hk _ hpos ih hr ho hsd
    have hrhs := hr rhs (List.mem_cons_self _ _)
    have he : int_sub o.balance rhs.balance = o.balance - rhs.balance := by
      apply int_sub_eq <;> simp only [INT_MIN, INT_MAX] at * <;> omega
    rw [he] at hpos ih
    obtain ⟨k, app, g1, g2, g3⟩ := ih (fun x hx => hr x (List.mem_cons_of_mem _ hx))
      (by simp only [INT_MAX] at *; omega) hsd
    refine ⟨k + 1, app, ?_, g2, ?_⟩
    · rw [equal_range_cons_of_key rest hk, g1]
      simp [cleared]
    · rw [equal_range_cons_of_key rest hk]
      exact g3

/-- Scenario S4 as an instance of C30: `A 30` is erased, `C 40` is lowered to
20 and `SELL 50` is filled. -/
theorem process_order_head_witness :
    (order_manager_t.process_order [order_A30, order_C40] order_B50 []).to_notify =
      [cleared order_A30, cleared order_B50] ∧
    equal_range (order_manager_t.process_order [order_A30, order_C40] order_B50 []).orders_
      order_B50.stock (reverse_side order_B50.side) = [{ order_C40 with balance := 20 }] ∧
    ∃ (k : Nat) (app : orders_t),
      (order_manager_t.process_order [order_A30, order_C40] order_B50 []).to_notify =
        [] ++
          ((equal_range [order_A30, order_C40] order_B50.stock
            (reverse_side order_B50.side)).take k).map cleared ++ app ∧
      (app = [] ∨
        app = [(order_manager_t.process_order [order_A30, order_C40] order_B50 []).order]) ∧
      (equal_range (order_manager_t.process_order [order_A30, order_C40] order_B50 []).orders_
          order_B50.stock (reverse_side order_B50.side) =
          (equal_range [order_A30, order_C40] order_B50.stock
            (reverse_side order_B50.side)).drop k ∨
        ∃ (R : order_ptr) (tail : List order_ptr) (b : Int),
          (equal_range [order_A30, order_C40] order_B50.stock
            (reverse_side order_B50.side)).drop k = R :: tail ∧
          0 < b ∧ b < R.balance ∧
          equal_range
            (order_manager_t.process_order [order_A30, order_C40] order_B50 []).orders_
            order_B50.stock (reverse_side order_B50.side) = { R with balance := b } :: tail ∧
          (order_manager_t.process_order [order_A30, order_C40] order_B50 []).order.balance = 0) :=
  ⟨by decide, by decide,
    process_order_head [order_A30, order_C40] order_B50 [] (by decide) (by decide)⟩

end trading

namespace concurrent

/-! ## The work queue -/

theorem run_ops_fifo {T : Type} (ops : List (queue_op T)) :
    ∀ (q : queue_t T) (popped : List T), pops_on_nonempty ops q.queue_.length = true →
      ∃ q1 : queue_t T,
        run_ops ops q popped =
          some (popped ++ (q.queue_ ++ pushed ops).take (pops ops), q1) ∧
        q1.queue_ = (q.queue_ ++ pushed ops).drop (pops ops) := by
  induction ops with
  | nil =>
    intro q popped _
    exact ⟨q, by simp [run_ops, pushed, pops], by simp [pushed, pops]⟩
  | cons op ops ih =>
    intro q popped h
    cases op with
    | push t =>
      have h2 : pops_on_nonempty ops (q.push t).queue_.length = true := by
        simpa [pops_on_nonempty, queue_t.push] using h
      obtain ⟨q1, g1, g2⟩ := ih (q.push t) popped h2
      refine ⟨q1, ?_, ?_⟩
      · simpa [run_ops, pushed, pops, queue_t.push] using g1
      · simpa [pushed, pops, queue_t.push] using g2
    | pop_front =>
      obtain ⟨l⟩ := q
      cases l with
      | nil => simp [pops_on_nonempty] at h
      | cons x rest =>
        have h2 : pops_on_nonempty ops (queue_t.mk rest).queue_.length = true := by
          simpa [pops_on_nonempty] using h
        obtain ⟨q1, g1, g2⟩ := ih ⟨rest⟩ (popped ++ [x]) h2
        refine ⟨q1, ?_, ?_⟩
        · simpa [run_ops, queue_t.pop_front, pushed, pops] using g1
        · simpa [pushed, pops] using g2

/-- C19: for every sequence of `push` and `pop_front` calls on a queue in
which every `pop_front` finds the queue not empty, all calls return, the items
popped are, in order, the first items of the queue content followed by the
items pushed, as many as there are `pop_front` calls, and the queue is left
with the remaining ones in that order; from the empty queue the k-th
`pop_front` returns the k-th item pushed. -/
theorem queue_fifo {T : Type} (q0 : queue_t T) (ops : List (queue_op T))
    (h : pops_on_nonempty ops q0.queue_.length = true) :
    ∃ q1 : queue_t T,
      run_ops ops q0 [] = some ((q0.queue_ ++ pushed ops).take (pops ops), q1) ∧
      q1.queue_ = (q0.queue_ ++ pushed ops).drop (pops ops) := by
  obtain ⟨q1, g1, g2⟩ := run_ops_fifo ops q0 [] h
  exact ⟨q1, by simpa using g1, g2⟩

/-- Three pushes with two pops between them, from the empty queue, as an
instance of C19. -/
theorem queue_fifo_witness :
    run_ops [queue_op.push 1, queue_op.push 2, queue_op.pop_front, queue_op.push 3,
        queue_op.pop_front] (queue_t.empty Nat) [] = some ([1, 2], ⟨[3]⟩) ∧
    ∃ q1 : queue_t Nat,
      run_ops [queue_op.push 1, queue_op.push 2, queue_op.pop_front, queue_op.push 3,
          queue_op.pop_front] (queue_t.empty Nat) [] =
        some (((queue_t.empty Nat).queue_ ++
          pushed [queue_op.push 1, queue_op.push 2, queue_op.pop_front, queue_op.push 3,
            queue_op.pop_front]).take
          (pops [queue_op.push 1, queue_op.push 2, queue_op.pop_front, queue_op.push 3,
            queue_op.pop_front]), q1) ∧
      q1.queue_ = ((queue_t.empty Nat).queue_ ++
          pushed [queue_op.push 1, queue_op.push 2, queue_op.pop_front, queue_op.push 3,
            queue_op.pop_front]).drop
          (pops [queue_op.push 1, queue_op.push 2, queue_op.pop_front, queue_op.push 3,
            queue_op.pop_front]) :=
  ⟨by decide,
    queue_fifo (queue_t.empty Nat)
      [queue_op.push 1, queue_op.push 2, queue_op.pop_front, queue_op.push 3,
        queue_op.pop_front] (by decide)⟩

end concurrent
